import Mathlib

/-!
Verification development for the upmo knowledge-chat subsystem.

The TypeScript sources are shallowly embedded as executable Lean
definitions.  Strings are modelled as `List Char` / `String` over Unicode
code points (JavaScript indexes UTF-16 code units; the two agree on all
basic-multilingual-plane text, which is the only text these functions are
used on).  The platform built-in `String.prototype.normalize("NFKC")` is an
external service from the repository's point of view; it is modelled as an
abstract parameter `nfkc : String → String`, and theorems that need facts
about it take those facts as explicit hypotheses.
-/

namespace Upmo

/-- JavaScript whitespace class `\s` (WhiteSpace ∪ LineTerminator):
tab, LF, VT, FF, CR, space, NBSP, U+1680, U+2000–U+200A, U+2028, U+2029,
U+202F, U+205F, U+3000 and U+FEFF.  `String.prototype.trim` strips exactly
the same set. -/
def isJsWs (c : Char) : Bool :=
  c.toNat = 9 || c.toNat = 10 || c.toNat = 11 || c.toNat = 12 ||
  c.toNat = 13 || c.toNat = 32 ||
  c.toNat = 0xa0 || c.toNat = 0x1680 ||
  (0x2000 ≤ c.toNat && c.toNat ≤ 0x200a) ||
  c.toNat = 0x2028 || c.toNat = 0x2029 || c.toNat = 0x202f ||
  c.toNat = 0x205f || c.toNat = 0x3000 || c.toNat = 0xfeff

/-- Character class of the sanitizers' CJK-gap regex: Unicode
Script=Han, Script=Hiragana or Script=Katakana, as code-point ranges. -/
def isCjkChar (c : Char) : Bool :=
  -- Hiragana
  (0x3041 ≤ c.toNat && c.toNat ≤ 0x3096) ||
  (0x309d ≤ c.toNat && c.toNat ≤ 0x309f) ||
  -- Katakana
  (0x30a1 ≤ c.toNat && c.toNat ≤ 0x30fa) ||
  (0x30fd ≤ c.toNat && c.toNat ≤ 0x30ff) ||
  (0x31f0 ≤ c.toNat && c.toNat ≤ 0x31ff) ||
  (0x32d0 ≤ c.toNat && c.toNat ≤ 0x32fe) ||
  (0x3300 ≤ c.toNat && c.toNat ≤ 0x3357) ||
  (0xff66 ≤ c.toNat && c.toNat ≤ 0xff6f) ||
  (0xff71 ≤ c.toNat && c.toNat ≤ 0xff9d) ||
  -- Han
  (0x2e80 ≤ c.toNat && c.toNat ≤ 0x2e99) ||
  (0x2e9b ≤ c.toNat && c.toNat ≤ 0x2ef3) ||
  (0x2f00 ≤ c.toNat && c.toNat ≤ 0x2fd5) ||
  c.toNat = 0x3005 || c.toNat = 0x3007 ||
  (0x3021 ≤ c.toNat && c.toNat ≤ 0x3029) ||
  (0x3038 ≤ c.toNat && c.toNat ≤ 0x303b) ||
  (0x3400 ≤ c.toNat && c.toNat ≤ 0x4dbf) ||
  (0x4e00 ≤ c.toNat && c.toNat ≤ 0x9fff) ||
  (0xf900 ≤ c.toNat && c.toNat ≤ 0xfa6d) ||
  (0xfa70 ≤ c.toNat && c.toNat ≤ 0xfad9) ||
  (0x20000 ≤ c.toNat && c.toNat ≤ 0x2a6df) ||
  (0x2a700 ≤ c.toNat && c.toNat ≤ 0x2ebe0) ||
  (0x2f800 ≤ c.toNat && c.toNat ≤ 0x2fa1d) ||
  (0x30000 ≤ c.toNat && c.toNat ≤ 0x3134a)

/-- State machine for `.replace(/\s+/g, " ")`: `prevWs` records whether
the previous character belonged to a whitespace run that has already
emitted its replacement space. -/
def collapseWsGo (prevWs : Bool) : List Char → List Char
  | [] => []
  | c :: rest =>
    if isJsWs c then
      if prevWs then collapseWsGo true rest
      else ' ' :: collapseWsGo true rest
    else c :: collapseWsGo false rest

/-- Embedding of `.replace(/\s+/g, " ")`: every maximal whitespace run
becomes a single ASCII space. -/
def collapseWs (l : List Char) : List Char := collapseWsGo false l

/-- State machine for `.replace(/(?<=CJK)\s+(?=CJK)/gu, "")`: `prevCjk`
records whether the last emitted character is CJK, and `pending` (in
reverse order) buffers a whitespace run that followed a CJK character.
On reaching another CJK character the buffered run is the regex match and
is dropped; on reaching any other character (or the end) it is flushed.
A run whose following character is not CJK is kept whole, because every
shorter prefix of the run is followed by whitespace, which is never CJK,
so the zero-width lookahead fails for it. -/
def removeCjkGapsGo (prevCjk : Bool) (pending : List Char) :
    List Char → List Char
  | [] => pending.reverse
  | c :: rest =>
    if isJsWs c then
      if prevCjk then removeCjkGapsGo prevCjk (c :: pending) rest
      else c :: removeCjkGapsGo false [] rest
    else if isCjkChar c then c :: removeCjkGapsGo true [] rest
    else pending.reverse ++ c :: removeCjkGapsGo false [] rest

/-- Embedding of `.replace(/(?<=CJK)\s+(?=CJK)/gu, "")`: a maximal
whitespace run is deleted exactly when its immediate neighbours on both
sides are CJK characters. -/
def removeCjkGaps (l : List Char) : List Char := removeCjkGapsGo false [] l

/-- Trailing-whitespace removal (the right half of `trim`). -/
def dropTrailingWs (l : List Char) : List Char :=
  (l.reverse.dropWhile isJsWs).reverse

/-- Embedding of `String.prototype.trim()`. -/
def trimWs (l : List Char) : List Char :=
  dropTrailingWs (l.dropWhile isJsWs)

/-- Pure part of the sanitizers (everything after the NFKC call):
CJK-gap removal, whitespace collapsing, trim. -/
def sanitizePipe (l : List Char) : List Char :=
  trimWs (collapseWs (removeCjkGaps l))

/-- Embedding of `sanitizeText` from `src/app/api/pdf-analyze/route.ts`:
NFKC normalization, CJK-gap removal, whitespace collapsing, trim. -/
def sanitizeText (nfkc : String → String) (value : String) : String :=
  ⟨sanitizePipe (nfkc value).toList⟩

/-- Embedding of `sanitizeExtractedText` from `src/app/home/page.tsx` —
the same pipeline as `sanitizeText` (NFKC, CJK-gap removal, collapse,
trim). -/
def sanitizeExtractedText (nfkc : String → String) (value : String) : String :=
  ⟨sanitizePipe (nfkc value).toList⟩

/-! Normal-form predicates used to reason about the sanitizers. -/

/-- Holds when the list does not start with whitespace. -/
def headNotWs : List Char → Bool
  | [] => true
  | c :: _ => !isJsWs c

/-- Holds when every adjacent pair satisfies `f`. -/
def pairsOk (f : Char → Char → Bool) : List Char → Bool
  | a :: b :: rest => f a b && pairsOk f (b :: rest)
  | _ => true

/-- Holds when every adjacent triple satisfies `f`. -/
def triplesOk (f : Char → Char → Char → Bool) : List Char → Bool
  | a :: b :: c :: rest => f a b c && triplesOk f (b :: c :: rest)
  | _ => true

/-- No two adjacent whitespace characters. -/
def noTwoWs (a b : Char) : Bool := !(isJsWs a && isJsWs b)

/-- No whitespace character sitting between two CJK characters. -/
def noGapTriple (a b c : Char) : Bool := !(isCjkChar a && isJsWs b && isCjkChar c)

/-- Every whitespace character is a plain ASCII space. -/
def wsIsSpace (l : List Char) : Bool := l.all fun c => !isJsWs c || c = ' '

/-- No leading and no trailing whitespace. -/
def noEdgeWs (l : List Char) : Bool := headNotWs l && headNotWs l.reverse

/-- Fixed points of the sanitizer pipeline. -/
def sanitizedForm (l : List Char) : Bool :=
  wsIsSpace l && pairsOk noTwoWs l && triplesOk noGapTriple l && noEdgeWs l

/-! Analysis pipeline (`src/app/api/pdf-analyze/route.ts`). -/

structure PricingPlan where
  name : String
  priceMonthlyYen : Option Int
  note : String
deriving Repr, DecidableEq

structure AnalyzeResult where
  summary : String
  plans : List PricingPlan
deriving Repr, DecidableEq

def isAsciiDigit (c : Char) : Bool := '0' ≤ c && c ≤ '9'

/-- Name character class of the fallback plan regex:
`[A-Za-zぁ-んァ-ヶ一-龠ー・\s]`. -/
def isPlanNameChar (c : Char) : Bool :=
  ('A' ≤ c && c ≤ 'Z') || ('a' ≤ c && c ≤ 'z') ||
  (0x3041 ≤ c.toNat && c.toNat ≤ 0x3093) ||
  (0x30a1 ≤ c.toNat && c.toNat ≤ 0x30f6) ||
  (0x4e00 ≤ c.toNat && c.toNat ≤ 0x9fa0) ||
  c = 'ー' || c = '・' || isJsWs c

/-- Matcher for the regex tail `\s*円\s*\/?\s*月`; returns the suffix after
`月` on success.  (Skipping a maximal whitespace run before a literal is
exact, because no whitespace character equals `円`, `/` or `月`; likewise
the greedy `\/?` never needs backtracking, as `月 ≠ /`.) -/
def matchYenMonth (l : List Char) : Option (List Char) :=
  match l.dropWhile isJsWs with
  | '円' :: r =>
    let r1 := r.dropWhile isJsWs
    let r2 := match r1 with
      | '/' :: r' => r'.dropWhile isJsWs
      | _ => r1
    match r2 with
    | '月' :: rest => some rest
    | _ => none
  | _ => none

/-- Greedy parse of `(?:,[0-9]\x7b3\x7d)*`: the maximal list of consumed
`,ddd` chunks (each stored with its comma) and the remainder. -/
def commaGroups : List Char → List (List Char) × List Char
  | ',' :: d1 :: d2 :: d3 :: rest =>
    if isAsciiDigit d1 && isAsciiDigit d2 && isAsciiDigit d3 then
      let (gs, r) := commaGroups rest
      ([',', d1, d2, d3] :: gs, r)
    else ([], ',' :: d1 :: d2 :: d3 :: rest)
  | l => ([], l)

/-- Backtracking over how many of the greedily-consumed comma groups the
match keeps (most first, dropping from the end), then the `円…月` tail.
The argument is the reversed group list; returns the kept groups (in
order) and the suffix after `月`. -/
def tryAmountTailRev : List (List Char) → List Char → Option (List (List Char) × List Char)
  | gsRev, r =>
    match matchYenMonth r with
    | some rest => some (gsRev.reverse, rest)
    | none =>
      match gsRev with
      | [] => none
      | g :: gsRev2 => tryAmountTailRev gsRev2 (g ++ r)

/-- Backtracking over the length of the greedy core `[0-9]\x7b2,6\x7d`
(longest first), then comma groups, then the `円…月` tail.  Returns the
digit characters of the matched amount (commas removed) and the suffix
after `月`. -/
def tryCoreFrom : Nat → List Char → List Char → Option (List Char × List Char)
  | 0, _, _ => none
  | 1, _, _ => none
  | len + 2, run, afterRun =>
    let rem := run.drop (len + 2) ++ afterRun
    let (gs, r) := commaGroups rem
    match tryAmountTailRev gs.reverse r with
    | some (used, rest) =>
      some (run.take (len + 2) ++ (used.map (·.drop 1)).flatten, rest)
    | none => tryCoreFrom (len + 1) run afterRun

/-- Matcher for the amount part `([0-9]\x7b2,6\x7d(?:,[0-9]\x7b3\x7d)*)`
followed by the `円…月` tail, at the head of `l`. -/
def matchAmountAt (l : List Char) : Option (List Char × List Char) :=
  let run := l.takeWhile isAsciiDigit
  tryCoreFrom (min 6 run.length) run (l.dropWhile isAsciiDigit)

/-- Backtracking over the length of the greedy name group
`[A-Za-zぁ-んァ-ヶ一-龠ー・\s]\x7b1,20\x7d` (longest first), then `\s*`,
then the amount and tail.  Returns (name chars, amount digit chars,
suffix after the match). -/
def tryNameFrom (n1 : Nat) (l : List Char) :
    Option (List Char × List Char × List Char) :=
  match n1 with
  | 0 => none
  | n + 1 =>
    match matchAmountAt ((l.drop (n + 1)).dropWhile isJsWs) with
    | some (digits, rest) => some (l.take (n + 1), digits, rest)
    | none => tryNameFrom n l

/-- Attempt to match the whole plan regex at the head of `l`. -/
def matchPlanAt (l : List Char) : Option (List Char × List Char × List Char) :=
  tryNameFrom (min 20 (l.takeWhile isPlanNameChar).length) l

/-- Leftmost match: try every start position in order. -/
def findPlan : List Char → Option (List Char × List Char × List Char)
  | [] => none
  | c :: rest =>
    match matchPlanAt (c :: rest) with
    | some r => some r
    | none => findPlan rest

/-- Embedding of the `planRegex.exec` loop (`/g`): repeatedly take the
leftmost match and continue after it.  Every match consumes at least one
character, so `l.length + 1` fuel always suffices. -/
def execPlans (fuel : Nat) (l : List Char) : List (List Char × List Char) :=
  match fuel with
  | 0 => []
  | fuel + 1 =>
    match findPlan l with
    | none => []
    | some (g1, digits, rest) => (g1, digits) :: execPlans fuel rest

/-- Numeric value of a digit string (the JS code removes the commas and
applies `Number`; the digits are already comma-free here). -/
def natOfDigits (ds : List Char) : Nat :=
  ds.foldl (fun n c => n * 10 + (c.toNat - 48)) 0

/-- Embedding of `String.prototype.trim` on `String`. -/
def jsTrim (s : String) : String := ⟨trimWs s.toList⟩

/-- Dedup key `` `${name}-${priceMonthlyYen}` `` of `fallbackAnalyze`.
The name never contains an ASCII `-` (it is drawn from the name character
class), and the price prints as plain decimal digits, so this key is
injective in the (name, price) pair. -/
def fallbackKey (name : String) (price : Nat) : String :=
  name ++ "-" ++ toString price

/-- JS `Map.set` for a map used only to keep first occurrences
(`if (!plansMap.has(key)) plansMap.set(key, plan)`). -/
def insertNewKey (acc : List (String × PricingPlan)) (key : String)
    (p : PricingPlan) : List (String × PricingPlan) :=
  if acc.any (fun kv => kv.1 = key) then acc else acc ++ [(key, p)]

/-- Key/plan pairs produced by the `fallbackAnalyze` match loop: the key
uses the trimmed name as extracted, while the stored plan name falls back
to `"プラン"` when the extracted name is empty (`name || "プラン"`). -/
def fallbackPlanPairs (normalized : String) : List (String × PricingPlan) :=
  (execPlans (normalized.toList.length + 1) normalized.toList).map fun m =>
    let name : String := ⟨collapseWs (trimWs m.1)⟩
    let price := natOfDigits m.2
    (fallbackKey name price,
      ({ name := if name = "" then "プラン" else name,
         priceMonthlyYen := some (Int.ofNat price), note := "" } : PricingPlan))

/-- The `plansMap` of `fallbackAnalyze`: first occurrence of each key wins. -/
def fallbackPlansMap (normalized : String) : List (String × PricingPlan) :=
  (fallbackPlanPairs normalized).foldl (fun acc kp => insertNewKey acc kp.1 kp.2) []

/-- Embedding of `fallbackAnalyze` from `src/app/api/pdf-analyze/route.ts`. -/
def fallbackAnalyze (nfkc : String → String) (text : String) : AnalyzeResult :=
  let normalized := sanitizeText nfkc text
  let summary :=
    if normalized = "" then "概要を抽出できませんでした。"
    else ⟨normalized.toList.take 180⟩
  { summary := summary,
    plans := ((fallbackPlansMap normalized).map (·.2)).take 8 }

/-- Parsed JSON payload shape consumed by `safeParseAnalyze`.  JSON
parsing itself is external; `name`/`note` are `some` when present
(already coerced to strings), `priceMonthlyYen` is `some` exactly when
the JSON value is a number. -/
structure RawPlan where
  name : Option String
  priceMonthlyYen : Option Int
  note : Option String

/-- Top-level parsed payload: `summary` is `some` exactly when
`typeof parsed.summary === "string"`, `plans` is `some` exactly when
`Array.isArray(parsed.plans)`. -/
structure RawAnalyze where
  summary : Option String
  plans : Option (List RawPlan)

/-- Embedding of `safeParseAnalyze`; the argument is the already-parsed
JSON payload (`none` models a `JSON.parse` failure). -/
def safeParseAnalyze (parsed : Option RawAnalyze) : Option AnalyzeResult :=
  match parsed with
  | none => none
  | some p =>
    match p.summary, p.plans with
    | some summary, some plans =>
      let plans := (plans.map fun plan =>
        ({ name := jsTrim (plan.name.getD ""),
           priceMonthlyYen := plan.priceMonthlyYen,
           note := jsTrim (plan.note.getD "") } : PricingPlan)).filter
        fun plan => 0 < plan.name.length
      some { summary := jsTrim summary, plans := plans }
    | _, _ => none

/-- Outcome of the remote model call made by the analyze endpoint:
whether the HTTP response was ok, and the parsed JSON of the output text
directly and of its first braced substring. -/
structure RemoteAnalyzeOutcome where
  httpOk : Bool
  direct : Option RawAnalyze
  recovered : Option RawAnalyze

inductive AnalyzeResponse where
  | ok (result : AnalyzeResult)
  | badRequest (error : String)
deriving Repr, DecidableEq

/-- Embedding of the `POST` handler of `src/app/api/pdf-analyze/route.ts`
(the catch-all branch for a malformed request body is outside this model). -/
def analyzePOST (nfkc : String → String) (bodyText : Option String)
    (hasApiKey : Bool) (remote : RemoteAnalyzeOutcome) : AnalyzeResponse :=
  let text := sanitizeText nfkc (bodyText.getD "")
  if text = "" then .badRequest "text is required"
  else if !hasApiKey then .ok (fallbackAnalyze nfkc text)
  else if !remote.httpOk then .ok (fallbackAnalyze nfkc text)
  else
    match safeParseAnalyze remote.direct with
    | some direct => .ok direct
    | none =>
      match safeParseAnalyze remote.recovered with
      | some recovered => .ok recovered
      | none => .ok (fallbackAnalyze nfkc text)

/-! Answer engine and knowledge store (`src/app/home/page.tsx`). -/

/-- Embedding of a `SourceItem` as produced by the Firestore snapshot
mappings: every field is coerced to a concrete value (`String(x ?? "")`,
`parsePricingPlans`), so absent fields appear as `""` / `[]`. -/
structure SourceItem where
  id : String
  name : String
  text : String
  summary : String
  pricingPlans : List PricingPlan
  storagePath : String
  inheritedFromDocumentId : String
deriving Repr, DecidableEq

/-- Embedding of `normalizeText`:
`value.toLowerCase().replace(/\s+/g, " ").trim()` (`toLowerCase` modelled
per code point). -/
def normalizeText (value : String) : String :=
  ⟨trimWs (collapseWs (value.toList.map Char.toLower))⟩

/-- Embedding of `String.prototype.split(" ")`: cut at every single
space character. -/
def splitOnSpace (cur : List Char) : List Char → List String
  | [] => [⟨cur.reverse⟩]
  | c :: rest =>
    if c = ' ' then ⟨cur.reverse⟩ :: splitOnSpace [] rest
    else splitOnSpace (c :: cur) rest

/-- Question tokens: split the normalized question on spaces, trim, keep
tokens of length at least 2. -/
def questionTokens (q : String) : List String :=
  ((splitOnSpace [] (normalizeText q).toList).map jsTrim).filter fun t => 2 ≤ t.length

/-- Substring test (`String.prototype.includes` / regex `.test` with a
literal alternative). -/
def containsSub (s pat : List Char) : Bool :=
  s.tails.any fun t => pat.isPrefixOf t

/-- Embedding of `String.prototype.indexOf`: index of the first
occurrence of `pat`, counting from `i`. -/
def indexOfFrom (pat : List Char) : Nat → List Char → Option Nat
  | i, [] => if pat.isPrefixOf [] then some i else none
  | i, c :: t =>
    if pat.isPrefixOf (c :: t) then some i else indexOfFrom pat (i + 1) t

/-- Price-intent keywords of `/料金|価格|費用|プラン|月額|値段/`. -/
def priceIntentWords : List String := ["料金", "価格", "費用", "プラン", "月額", "値段"]

/-- Embedding of `isPriceQuestion`. -/
def isPriceQuestion (q : String) : Bool :=
  priceIntentWords.any fun w => containsSub q.toList w.toList

/-- Chunks of three digits, least-significant first. -/
def chunk3 : List Char → List (List Char)
  | [] => [[]]
  | [a] => [[a]]
  | [a, b] => [[a, b]]
  | [a, b, c] => [[a, b, c]]
  | a :: b :: c :: rest => [a, b, c] :: chunk3 rest

/-- Embedding of `Number.prototype.toLocaleString("ja-JP")` for integers:
decimal digits grouped in threes by commas. -/
def jaLocaleString (i : Int) : String :=
  let grouped : List Char :=
    (List.intercalate [','] (chunk3 (Nat.toDigits 10 i.natAbs).reverse)).reverse
  if i < 0 then ⟨'-' :: grouped⟩ else ⟨grouped⟩

/-- Reverse-direction matcher for the lookbehind `(?<=円\s*\/?\s*月)`:
`rev` is the reversed prefix ending at the split position. -/
def isYenMonthSuffix (rev : List Char) : Bool :=
  match rev with
  | '月' :: r =>
    let r1 := r.dropWhile isJsWs
    let r2 := match r1 with
      | '/' :: r2 => r2.dropWhile isJsWs
      | _ => r1
    match r2 with
    | '円' :: _ => true
    | _ => false
  | _ => false

/-- Embedding of `.split(/(?<=円\s*\/?\s*月)/g)`: cut after every
`円…月` occurrence.  (A possible final empty segment is immaterial: the
caller trims and drops empty segments.) -/
def splitYenMonth (rev : List Char) : List Char → List (List Char)
  | [] => [rev.reverse]
  | c :: rest =>
    if isYenMonthSuffix (c :: rev) then (c :: rev).reverse :: splitYenMonth [] rest
    else splitYenMonth (c :: rev) rest

/-- Existence test for one alternative of the price-line regex: `min1`/
`max1` bound the leading digit group, `minGroups` the comma groups. -/
def testAmountAlt (min1 max1 minGroups : Nat) (l : List Char) : Bool :=
  let run := l.takeWhile isAsciiDigit
  let afterRun := l.dropWhile isAsciiDigit
  (List.range (min max1 run.length + 1)).any fun len =>
    min1 ≤ len &&
      (let rem := run.drop len ++ afterRun
       let (gs, r) := commaGroups rem
       (List.range (gs.length + 1)).any fun used =>
         minGroups ≤ used &&
           (matchYenMonth ((gs.drop used).flatten ++ r)).isSome)

/-- Existence test for
`/([0-9]\x7b1,3\x7d(?:,[0-9]\x7b3\x7d)+|[0-9]\x7b2,6\x7d)\s*円\s*\/?\s*月/`
anywhere in `l`. -/
def testPriceLike (l : List Char) : Bool :=
  l.tails.any fun t => testAmountAlt 1 3 1 t || testAmountAlt 2 6 0 t

/-- First-occurrence dedup (`Array.from(new Set(...))`). -/
def dedupFirst (seen : List String) : List String → List String
  | [] => []
  | s :: rest =>
    if seen.contains s then dedupFirst seen rest
    else s :: dedupFirst (s :: seen) rest

/-- Embedding of `extractPriceLines` from `src/app/home/page.tsx`. -/
def extractPriceLines (nfkc : String → String) (text : String) : List String :=
  let lines := (((splitYenMonth [] (sanitizeExtractedText nfkc text).toList).map
    fun seg => jsTrim ⟨seg⟩).filter fun s => s ≠ "")
  let priceLike := lines.filter fun line => testPriceLike line.toList
  (dedupFirst [] priceLike).take 5

/-- Dedup key `` `${plan.name}-${plan.priceMonthlyYen ?? "null"}` `` of the
structured-plan branch. -/
def planDedupKey (p : PricingPlan) : String :=
  p.name ++ "-" ++ (match p.priceMonthlyYen with
    | some n => toString n
    | none => "null")

/-- JS `Map` construction from an entry list: a repeated key keeps its
first position but takes the last value. -/
def mapUpsert (acc : List (String × PricingPlan)) (key : String)
    (p : PricingPlan) : List (String × PricingPlan) :=
  if acc.any (fun kv => kv.1 = key) then
    acc.map fun kv => if kv.1 = key then (key, p) else kv
  else acc ++ [(key, p)]

/-- Formatting of one structured price line. -/
def formatPlanLine (p : PricingPlan) : String :=
  let amount := match p.priceMonthlyYen with
    | some n => jaLocaleString n ++ "円/月"
    | none => "価格不明"
  p.name ++ ": " ++ amount ++ (if p.note ≠ "" then "（" ++ p.note ++ "）" else "")

/-- Price-intent branch of `buildAssistantReply` (`some reply` when that
branch returns). -/
def priceBranch (nfkc : String → String) (question : String)
    (sources : List SourceItem) : Option String :=
  if isPriceQuestion question then
    let structuredPlans := ((sources.map (·.pricingPlans)).flatten).filter
      fun p => 0 < p.name.length
    if 0 < structuredPlans.length then
      let deduped := (structuredPlans.foldl
        (fun acc p => mapUpsert acc (planDedupKey p) p) []).map (·.2)
      some ("料金情報:\n" ++ String.intercalate "\n" (deduped.map formatPlanLine))
    else
      let prices := (sources.map fun s => extractPriceLines nfkc s.text).flatten
      if 0 < prices.length then
        some ("料金情報:\n" ++ String.intercalate "\n" prices)
      else none
  else none

/-- Number of question tokens found in the normalized source text. -/
def sourceScore (tokens : List String) (normalizedSource : List Char) : Nat :=
  (tokens.filter fun t => (indexOfFrom t.toList 0 normalizedSource).isSome).length

/-- Earliest hit index over all tokens (the loop keeps the minimum). -/
def firstHitIndex (tokens : List String) (normalizedSource : List Char) : Option Nat :=
  match tokens.filterMap fun t => indexOfFrom t.toList 0 normalizedSource with
  | [] => none
  | h :: t => some (t.foldl min h)

/-- Snippet computation of the general branch: a window of the raw text
around the earliest hit, whitespace-collapsed and trimmed. -/
def snippetOf (tokens : List String) (source : SourceItem) : String :=
  let ns := (normalizeText source.text).toList
  match firstHitIndex tokens ns with
  | some hit =>
    let start := hit - 80
    let stop := min source.text.toList.length (hit + 220)
    jsTrim ⟨collapseWs ((source.text.toList.drop start).take (stop - start))⟩
  | none => jsTrim ⟨collapseWs (source.text.toList.take 220)⟩

/-- Loop state of the general branch (`bestSource`, `bestScore`,
`bestSnippet`). -/
structure BestState where
  best : Option SourceItem
  bestScore : Int
  bestSnippet : String
deriving Repr

/-- One iteration of the general-branch loop. -/
def stepBest (tokens : List String) (st : BestState) (source : SourceItem) :
    BestState :=
  let ns := (normalizeText source.text).toList
  if ns = [] then st
  else
    let score := sourceScore tokens ns
    if (score : Int) > st.bestScore then
      { best := some source, bestScore := score,
        bestSnippet := snippetOf tokens source }
    else st

/-- The general-branch loop over all candidate sources. -/
def runBest (tokens : List String) (sources : List SourceItem) : BestState :=
  sources.foldl (stepBest tokens) { best := none, bestScore := -1, bestSnippet := "" }

/-- Embedding of `buildAssistantReply` from `src/app/home/page.tsx`. -/
def buildAssistantReply (nfkc : String → String) (question : String)
    (sources : List SourceItem) : String :=
  if sources.length = 0 then "先にPDFをアップロードしてください。"
  else
    match priceBranch nfkc question sources with
    | some reply => reply
    | none =>
      let tokens := questionTokens question
      let st := runBest tokens sources
      match st.best with
      | none => "回答に使えるテキストを見つけられませんでした。"
      | some best =>
        if best.summary ≠ "" && decide (st.bestScore ≤ 0) then
          best.name ++ " の概要: " ++ best.summary
        else "「" ++ best.name ++ "」を参照: " ++ st.bestSnippet

/-- Outcome of one `handleAsk` reply computation. -/
structure AskOutcome where
  remoteCalled : Bool
  reply : String
deriving Repr, DecidableEq

/-- Embedding of the reply computation inside `handleAsk`:
`generateAiReply` (a fetch to the remote chat endpoint) is invoked
unconditionally before the local fallback; `remote = none` models a
thrown error, `some s` the trimmed response body.  The local fallback is
used exactly when the remote attempt throws or yields `""`. -/
def handleAskReply (nfkc : String → String) (remote : Option String)
    (question : String) (targetSources : List SourceItem) : AskOutcome :=
  let assistantReply := remote.getD ""
  { remoteCalled := true,
    reply :=
      if assistantReply = "" then buildAssistantReply nfkc question targetSources
      else assistantReply }

inductive ScopeType where
  | personal
  | team
deriving DecidableEq, Repr

/-- Embedding of the blob-deletion decision inside `handleDeleteSource`:
`deleteObject` runs exactly when this returns `true`.  The early returns
(team scope without a selected chat; the user cancelling the
confirmation) are modelled by `chatSelected` and `confirmed`. -/
def blobDeletedOnDelete (scope : ScopeType) (chatSelected : Bool)
    (confirmed : Bool) (source : SourceItem) : Bool :=
  if scope = .team && !chatSelected then false
  else if !confirmed then false
  else
    let deletingTeamLocalSource :=
      decide (scope = .team) && decide (source.inheritedFromDocumentId = "")
    decide (source.storagePath ≠ "") &&
      (decide (scope ≠ .team) || deletingTeamLocalSource)

/-- Spec-side blob-deletion condition, written from the words of the
specification: non-empty storage path AND (personal scope OR (team scope
AND the source was not inherited)). -/
def specBlobDelete (scope : ScopeType) (source : SourceItem) : Prop :=
  source.storagePath ≠ "" ∧
    (scope = .personal ∨ (scope = .team ∧ source.inheritedFromDocumentId = ""))

/-- One document written into the team thread's `documents`
sub-collection. -/
structure TeamDocWrite where
  chatId : String
  name : String
  text : String
  summary : String
  pricingPlans : List PricingPlan
  storagePath : String
  inheritedFromDocumentId : String
deriving Repr, DecidableEq

/-- Embedding of the document-copy part of `createTeamChatWithInheritance`:
the writes into `users/uid/chats/createdChatId/documents` (the `?? ""` /
`?? []` coercions of the source are identities here, because the snapshot
representation already has concrete fields). -/
def createTeamChatWithInheritance (createdChatId : String)
    (globalSources : List SourceItem) (sourceIds : List String) :
    List TeamDocWrite :=
  (globalSources.filter fun s => sourceIds.contains s.id).map fun s =>
    { chatId := createdChatId, name := s.name, text := s.text,
      summary := s.summary, pricingPlans := s.pricingPlans,
      storagePath := s.storagePath, inheritedFromDocumentId := s.id }

/-! URL extractor (`src/app/api/url-extract/route.ts`). -/

/-- Matcher for `/^172\.(1[6-9]|2\d|3[0-1])\./`. -/
def matches172Range : List Char → Bool
  | c1 :: c2 :: c3 :: c4 :: a :: b :: c7 :: _ =>
    c1 = '1' && c2 = '7' && c3 = '2' && c4 = '.' && c7 = '.' &&
    ((a = '1' && '6' ≤ b && b ≤ '9') || (a = '2' && isAsciiDigit b) ||
      (a = '3' && (b = '0' || b = '1')))
  | _ => false

/-- List-level `startsWith`. -/
def startsWithL (l pre : List Char) : Bool := pre.isPrefixOf l

/-- List-level `endsWith`. -/
def endsWithL (l suf : List Char) : Bool := suf.reverse.isPrefixOf l.reverse

/-- Embedding of `isPrivateHostname` from
`src/app/api/url-extract/route.ts`. -/
def isPrivateHostname (hostname : String) : Bool :=
  let host := hostname.toList.map Char.toLower
  host = "localhost".toList ||
  endsWithL host ".local".toList ||
  host = "0.0.0.0".toList || startsWithL host "127.".toList ||
  startsWithL host "10.".toList ||
  startsWithL host "192.168.".toList ||
  matches172Range host

/-- Spec-side private-host condition, written from the words of the
specification (exact `localhost`/`0.0.0.0`, suffix `.local`, prefixes
`127.`, `10.`, `192.168.`, and the `172.16.`–`172.31.` prefix range). -/
def specPrivateHost (hostname : String) : Prop :=
  let host := hostname.toList.map Char.toLower
  host = "localhost".toList ∨ host = "0.0.0.0".toList ∨
  endsWithL host ".local".toList = true ∨
  startsWithL host "127.".toList = true ∨
  startsWithL host "10.".toList = true ∨
  startsWithL host "192.168.".toList = true ∨
  ∃ n : Nat, 16 ≤ n ∧ n ≤ 31 ∧
    startsWithL host ("172." ++ toString n ++ ".").toList = true

/-- Decision of the URL-extract `POST` handler before any network
activity: whether a fetch is attempted and which error is returned
otherwise. -/
structure UrlExtractDecision where
  fetchAttempted : Bool
  error : Option String
deriving Repr, DecidableEq

/-- Embedding of the guard sequence of the URL-extract `POST` handler:
scheme check, then private-host check, then (and only then) the fetch. -/
def urlExtractPOST (protocol hostname : String) : UrlExtractDecision :=
  if !(["http:", "https:"].contains protocol) then
    { fetchAttempted := false, error := some "http/https only" }
  else if isPrivateHostname hostname then
    { fetchAttempted := false, error := some "private host is not allowed" }
  else { fetchAttempted := true, error := none }

/-! Concrete inputs used by the counterexample and evaluation theorems. -/

/-- Text of the specification's end-to-end fallback scenario. -/
def c1Input : String := "プランA 3,000円/月 プランB 5,000円/月"

/-- A plan entry as it appears nine times in a remote-model response. -/
def c4RawPlan : RawPlan := { name := some "A", priceMonthlyYen := some 100, note := some "" }

/-- A parsed remote-model payload carrying nine identical plans. -/
def c4Payload : RawAnalyze := { summary := some "s", plans := some (List.replicate 9 c4RawPlan) }

/-- The coerced form of `c4RawPlan`. -/
def c4Plan : PricingPlan := { name := "A", priceMonthlyYen := some 100, note := "" }

/-- A candidate source with empty text but a stored pricing plan. -/
def c10PriceSource : SourceItem :=
  { id := "1", name := "S", text := "", summary := "",
    pricingPlans := [{ name := "Basic", priceMonthlyYen := some 1000, note := "" }],
    storagePath := "", inheritedFromDocumentId := "" }

/-! ### Normal-form theory of the sanitizer pipeline -/

theorem ws_not_cjk (c : Char) (h : isJsWs c = true) : isCjkChar c = false := by
  rw [← Bool.not_eq_true]
  unfold isJsWs at h
  unfold isCjkChar
  simp only [Bool.or_eq_true, Bool.and_eq_true, decide_eq_true_eq] at h ⊢
  omega

theorem cjk_not_ws (c : Char) (h : isCjkChar c = true) : isJsWs c = false := by
  cases hw : isJsWs c with
  | false => rfl
  | true => rw [ws_not_cjk c hw] at h; cases h

theorem dropWhile_head_not (p : Char → Bool) (l : List Char) (d : Char)
    (rem : List Char) (h : l.dropWhile p = d :: rem) : p d = false := by
  induction l with
  | nil => cases h
  | cons c t ih =>
    by_cases hc : p c
    · rw [List.dropWhile_cons_of_pos hc] at h
      exact ih h
    · rw [List.dropWhile_cons_of_neg hc] at h
      cases h
      exact Bool.not_eq_true _ ▸ (by simpa using hc)

theorem collapseWsGo_true (l : List Char) :
    collapseWsGo true l = collapseWsGo false (l.dropWhile isJsWs) := by
  induction l with
  | nil => rfl
  | cons c rest ih =>
    by_cases hc : isJsWs c
    · rw [List.dropWhile_cons_of_pos hc]
      simp only [collapseWsGo, hc, if_true]
      exact ih
    · rw [List.dropWhile_cons_of_neg hc]
      simp [collapseWsGo, hc]

theorem collapseWs_nil : collapseWs [] = [] := rfl

theorem collapseWs_ws (c : Char) (rest : List Char) (h : isJsWs c = true) :
    collapseWs (c :: rest) = ' ' :: collapseWs (rest.dropWhile isJsWs) := by
  unfold collapseWs
  simp only [collapseWsGo, h, if_true]
  rw [collapseWsGo_true]
  simp

theorem collapseWs_not_ws (c : Char) (rest : List Char) (h : isJsWs c = false) :
    collapseWs (c :: rest) = c :: collapseWs rest := by
  unfold collapseWs
  simp [collapseWsGo, h]

theorem removeCjkGapsGo_true (rest : List Char) (pend : List Char) :
    removeCjkGapsGo true pend rest =
      match rest.dropWhile isJsWs with
      | [] => pend.reverse ++ rest
      | d :: rem =>
        if isCjkChar d then d :: removeCjkGapsGo true [] rem
        else pend.reverse ++ rest.takeWhile isJsWs ++ d :: removeCjkGapsGo false [] rem := by
  induction rest generalizing pend with
  | nil => simp [removeCjkGapsGo]
  | cons e rest2 ih =>
    by_cases he : isJsWs e
    · rw [List.dropWhile_cons_of_pos he]
      have hstep : removeCjkGapsGo true pend (e :: rest2) =
          removeCjkGapsGo true (e :: pend) rest2 := by
        simp [removeCjkGapsGo, he]
      rw [hstep, ih (e :: pend)]
      cases hdw : rest2.dropWhile isJsWs with
      | nil => simp [List.takeWhile_cons_of_pos he]
      | cons d rem =>
        by_cases hd : isCjkChar d
        · simp [hd]
        · simp [hd, List.takeWhile_cons_of_pos he]
    · rw [List.dropWhile_cons_of_neg he]
      by_cases hc : isCjkChar e
      · simp [removeCjkGapsGo, he, hc]
      · simp [removeCjkGapsGo, he, hc, List.takeWhile_cons_of_neg (by simpa using he)]

theorem removeCjkGaps_nil : removeCjkGaps [] = [] := rfl

theorem removeCjkGaps_not_cjk (c : Char) (rest : List Char)
    (h : isCjkChar c = false) :
    removeCjkGaps (c :: rest) = c :: removeCjkGaps rest := by
  unfold removeCjkGaps
  by_cases hw : isJsWs c
  · simp [removeCjkGapsGo, hw]
  · simp [removeCjkGapsGo, hw, h]

theorem removeCjkGaps_cjk (c : Char) (rest : List Char) (h : isCjkChar c = true) :
    removeCjkGaps (c :: rest) =
      match rest.dropWhile isJsWs with
      | [] => c :: rest
      | d :: rem =>
        if isCjkChar d then c :: removeCjkGaps (d :: rem)
        else c :: rest.takeWhile isJsWs ++ removeCjkGaps (d :: rem) := by
  unfold removeCjkGaps
  have hstep : removeCjkGapsGo false [] (c :: rest) =
      c :: removeCjkGapsGo true [] rest := by
    simp [removeCjkGapsGo, cjk_not_ws c h, h]
  rw [hstep, removeCjkGapsGo_true rest []]
  cases hdw : rest.dropWhile isJsWs with
  | nil => simp
  | cons d rem =>
    have hdws := dropWhile_head_not isJsWs rest d rem hdw
    by_cases hd : isCjkChar d
    · have hstep2 : removeCjkGapsGo false [] (d :: rem) =
          d :: removeCjkGapsGo true [] rem := by
        simp [removeCjkGapsGo, hdws, hd]
      simp [hd, hstep2]
    · have hstep2 : removeCjkGapsGo false [] (d :: rem) =
          d :: removeCjkGapsGo false [] rem := by
        simp [removeCjkGapsGo, hdws, hd]
      simp [hd, hstep2]

theorem removeCjkGaps_cons (c : Char) (rest : List Char) :
    ∃ u, removeCjkGaps (c :: rest) = c :: u := by
  by_cases h : isCjkChar c
  · rw [removeCjkGaps_cjk c rest h]
    cases hdw : rest.dropWhile isJsWs with
    | nil => exact ⟨rest, rfl⟩
    | cons d rem =>
      by_cases hd : isCjkChar d
      · exact ⟨removeCjkGaps (d :: rem), by simp [hd]⟩
      · exact ⟨rest.takeWhile isJsWs ++ removeCjkGaps (d :: rem), by simp [hd]⟩
  · rw [removeCjkGaps_not_cjk c rest (by simpa using h)]
    exact ⟨_, rfl⟩

theorem dropWhile_removeCjkGaps (l : List Char) :
    (removeCjkGaps l).dropWhile isJsWs = removeCjkGaps (l.dropWhile isJsWs) := by
  induction l with
  | nil => rfl
  | cons c rest ih =>
    by_cases hw : isJsWs c
    · rw [removeCjkGaps_not_cjk c rest (ws_not_cjk c hw),
        List.dropWhile_cons_of_pos hw, List.dropWhile_cons_of_pos hw]
      exact ih
    · obtain ⟨u, hu⟩ := removeCjkGaps_cons c rest
      rw [hu, List.dropWhile_cons_of_neg (by simp [hw]),
        List.dropWhile_cons_of_neg (by simp [hw]), ← hu]

theorem pipe_nil : collapseWs (removeCjkGaps []) = [] := rfl

theorem pipe_ws (c : Char) (rest : List Char) (h : isJsWs c = true) :
    collapseWs (removeCjkGaps (c :: rest)) =
      ' ' :: collapseWs (removeCjkGaps (rest.dropWhile isJsWs)) := by
  rw [removeCjkGaps_not_cjk c rest (ws_not_cjk c h), collapseWs_ws c _ h,
    dropWhile_removeCjkGaps]

theorem pipe_plain (c : Char) (rest : List Char) (hw : isJsWs c = false)
    (hc : isCjkChar c = false) :
    collapseWs (removeCjkGaps (c :: rest)) =
      c :: collapseWs (removeCjkGaps rest) := by
  rw [removeCjkGaps_not_cjk c rest hc, collapseWs_not_ws c _ hw]

theorem pipe_cjk_gap (c : Char) (rest : List Char) (d : Char) (rem : List Char)
    (h : isCjkChar c = true) (hdw : rest.dropWhile isJsWs = d :: rem)
    (hd : isCjkChar d = true) :
    collapseWs (removeCjkGaps (c :: rest)) =
      c :: collapseWs (removeCjkGaps (d :: rem)) := by
  rw [removeCjkGaps_cjk c rest h, hdw]
  simp only [hd, if_true]
  rw [collapseWs_not_ws c _ (cjk_not_ws c h)]

theorem pipe_cjk_norun (c : Char) (rest : List Char) (h : isCjkChar c = true)
    (htw : rest.takeWhile isJsWs = []) :
    collapseWs (removeCjkGaps (c :: rest)) =
      c :: collapseWs (removeCjkGaps rest) := by
  have hdw : rest.dropWhile isJsWs = rest := by
    cases rest with
    | nil => rfl
    | cons r t =>
      by_cases hr : isJsWs r
      · rw [List.takeWhile_cons_of_pos hr] at htw
        cases htw
      · exact List.dropWhile_cons_of_neg hr
  rw [removeCjkGaps_cjk c rest h, hdw]
  cases rest with
  | nil =>
    show collapseWs [c] = c :: collapseWs (removeCjkGaps [])
    rw [collapseWs_not_ws c [] (cjk_not_ws c h)]
    rfl
  | cons d rem =>
    have hdws : isJsWs d = false := by
      by_cases hr : isJsWs d
      · rw [List.takeWhile_cons_of_pos hr] at htw
        cases htw
      · simpa using hr
    by_cases hd : isCjkChar d
    · simp only [hd, if_true]
      rw [collapseWs_not_ws c _ (cjk_not_ws c h)]
    · simp only [hd, Bool.false_eq_true, if_false, htw, List.nil_append]
      rw [List.singleton_append, collapseWs_not_ws c _ (cjk_not_ws c h)]

theorem pipe_cjk_trail (c : Char) (rest : List Char) (h : isCjkChar c = true)
    (hne : rest ≠ []) (hdw : rest.dropWhile isJsWs = []) :
    collapseWs (removeCjkGaps (c :: rest)) = [c, ' '] := by
  rw [removeCjkGaps_cjk c rest h, hdw]
  have hall : ∀ x ∈ rest, isJsWs x = true := by
    intro x hx
    have := List.dropWhile_eq_nil_iff.mp hdw
    exact this x hx
  cases rest with
  | nil => exact absurd rfl hne
  | cons r t =>
    have hr : isJsWs r = true := hall r (List.mem_cons_self r t)
    rw [collapseWs_not_ws c _ (cjk_not_ws c h), collapseWs_ws r t hr]
    have : t.dropWhile isJsWs = [] := by
      rw [List.dropWhile_eq_nil_iff]
      intro x hx
      exact hall x (List.mem_cons_of_mem _ hx)
    rw [this]
    rfl

theorem pipe_cjk_keep (c : Char) (rest : List Char) (d : Char) (rem : List Char)
    (h : isCjkChar c = true) (htw : rest.takeWhile isJsWs ≠ [])
    (hdw : rest.dropWhile isJsWs = d :: rem) (hd : isCjkChar d = false) :
    collapseWs (removeCjkGaps (c :: rest)) =
      c :: ' ' :: collapseWs (removeCjkGaps (d :: rem)) := by
  rw [removeCjkGaps_cjk c rest h, hdw]
  simp only [hd, Bool.false_eq_true, if_false]
  rw [List.cons_append, collapseWs_not_ws c _ (cjk_not_ws c h)]
  have hdws : isJsWs d = false := dropWhile_head_not isJsWs rest d rem hdw
  cases htwc : rest.takeWhile isJsWs with
  | nil => exact absurd htwc htw
  | cons w ws2 =>
    have hall : ((w :: ws2).all isJsWs) = true := by
      rw [← htwc]
      exact List.all_takeWhile
    simp only [List.all_cons, Bool.and_eq_true] at hall
    obtain ⟨hw, hws2⟩ := hall
    rw [List.cons_append, collapseWs_ws w _ hw]
    have hdrop : (ws2 ++ removeCjkGaps (d :: rem)).dropWhile isJsWs =
        removeCjkGaps (d :: rem) := by
      rw [List.dropWhile_append_of_pos (by
        intro a ha
        exact List.all_eq_true.mp hws2 a ha)]
      obtain ⟨u, hu⟩ := removeCjkGaps_cons d rem
      rw [hu, List.dropWhile_cons_of_neg (by simp [hdws])]
    rw [hdrop]

theorem pairsOk_tail (f : Char → Char → Bool) (a : Char) (l : List Char)
    (h : pairsOk f (a :: l) = true) : pairsOk f l = true := by
  cases l with
  | nil => rfl
  | cons b t =>
    simp only [pairsOk, Bool.and_eq_true] at h
    exact h.2

theorem pairsOk_cons_of (f : Char → Char → Bool) (a : Char) (l : List Char)
    (hl : pairsOk f l = true) (hh : ∀ b u, l = b :: u → f a b = true) :
    pairsOk f (a :: l) = true := by
  cases l with
  | nil => rfl
  | cons b t =>
    simp only [pairsOk, Bool.and_eq_true]
    exact ⟨hh b t rfl, hl⟩

theorem triplesOk_tail (f : Char → Char → Char → Bool) (a : Char) (l : List Char)
    (h : triplesOk f (a :: l) = true) : triplesOk f l = true := by
  cases l with
  | nil => rfl
  | cons b t =>
    cases t with
    | nil => rfl
    | cons c u =>
      simp only [triplesOk, Bool.and_eq_true] at h
      exact h.2

theorem triplesOk_cons_of (f : Char → Char → Char → Bool) (a : Char) (l : List Char)
    (hl : triplesOk f l = true) (hh : ∀ b c u, l = b :: c :: u → f a b c = true) :
    triplesOk f (a :: l) = true := by
  cases l with
  | nil => rfl
  | cons b t =>
    cases t with
    | nil => rfl
    | cons c u =>
      simp only [triplesOk, Bool.and_eq_true]
      exact ⟨hh b c u rfl, hl⟩

theorem pipe_head_not_ws (d : Char) (l : List Char) (hd : isJsWs d = false) :
    ∃ u, collapseWs (removeCjkGaps (d :: l)) = d :: u := by
  obtain ⟨v, hv⟩ := removeCjkGaps_cons d l
  rw [hv, collapseWs_not_ws d v hd]
  exact ⟨_, rfl⟩

theorem pipe_sanitized (l : List Char) :
    wsIsSpace (collapseWs (removeCjkGaps l)) = true
    ∧ pairsOk noTwoWs (collapseWs (removeCjkGaps l)) = true
    ∧ triplesOk noGapTriple (collapseWs (removeCjkGaps l)) = true := by
  cases l with
  | nil => exact ⟨rfl, rfl, rfl⟩
  | cons c rest =>
    by_cases hw : isJsWs c
    · rw [pipe_ws c rest hw]
      obtain ⟨ih1, ih2, ih3⟩ := pipe_sanitized (rest.dropWhile isJsWs)
      refine ⟨?_, ?_, ?_⟩
      · simp only [wsIsSpace, List.all_cons, Bool.and_eq_true] at ih1 ⊢
        exact ⟨by simp, ih1⟩
      · apply pairsOk_cons_of _ _ _ ih2
        intro b u hbu
        cases hX : rest.dropWhile isJsWs with
        | nil => rw [hX] at hbu; cases hbu
        | cons d rem =>
          have hdws := dropWhile_head_not isJsWs rest d rem hX
          obtain ⟨u2, hu2⟩ := pipe_head_not_ws d rem hdws
          rw [hX, hu2] at hbu
          injection hbu with h1 _
          subst h1
          unfold noTwoWs
          simp [hdws]
      · apply triplesOk_cons_of _ _ _ ih3
        intro b c2 u _
        unfold noGapTriple
        simp [show isCjkChar ' ' = false from rfl]
    · by_cases hc : isCjkChar c
      · cases hdw : rest.dropWhile isJsWs with
        | nil =>
          cases rest with
          | nil =>
            rw [pipe_cjk_norun c [] hc rfl]
            refine ⟨?_, ?_, ?_⟩ <;>
              simp [wsIsSpace, pairsOk, triplesOk, collapseWs_nil, removeCjkGaps_nil,
                show isJsWs c = false from by simpa using hw]
          | cons r t =>
            rw [pipe_cjk_trail c (r :: t) hc (by simp) hdw]
            refine ⟨?_, ?_, ?_⟩
            · simp [wsIsSpace, show isJsWs c = false from by simpa using hw]
            · simp [pairsOk, noTwoWs, show isJsWs c = false from by simpa using hw]
            · rfl
        | cons d rem =>
          by_cases hd : isCjkChar d
          · rw [pipe_cjk_gap c rest d rem hc hdw hd]
            obtain ⟨ih1, ih2, ih3⟩ := pipe_sanitized (d :: rem)
            have hdws : isJsWs d = false := cjk_not_ws d hd
            obtain ⟨u2, hu2⟩ := pipe_head_not_ws d rem hdws
            refine ⟨?_, ?_, ?_⟩
            · simp only [wsIsSpace, List.all_cons, Bool.and_eq_true] at ih1 ⊢
              exact ⟨by simp [show isJsWs c = false from by simpa using hw], ih1⟩
            · apply pairsOk_cons_of _ _ _ ih2
              intro b u _
              unfold noTwoWs
              simp [show isJsWs c = false from by simpa using hw]
            · apply triplesOk_cons_of _ _ _ ih3
              intro b c2 u hbu
              rw [hu2] at hbu
              injection hbu with h1 _
              subst h1
              unfold noGapTriple
              simp [hdws]
          · cases htw : rest.takeWhile isJsWs with
            | nil =>
              rw [pipe_cjk_norun c rest hc htw]
              obtain ⟨ih1, ih2, ih3⟩ := pipe_sanitized rest
              have hrest : rest = d :: rem := by
                conv_lhs => rw [← List.takeWhile_append_dropWhile (p := isJsWs) (l := rest)]
                rw [htw, hdw]
                rfl
              have hdws : isJsWs d = false := dropWhile_head_not isJsWs rest d rem hdw
              refine ⟨?_, ?_, ?_⟩
              · simp only [wsIsSpace, List.all_cons, Bool.and_eq_true] at ih1 ⊢
                exact ⟨by simp [show isJsWs c = false from by simpa using hw], ih1⟩
              · apply pairsOk_cons_of _ _ _ ih2
                intro b u _
                unfold noTwoWs
                simp [show isJsWs c = false from by simpa using hw]
              · apply triplesOk_cons_of _ _ _ ih3
                intro b c2 u hbu
                obtain ⟨u2, hu2⟩ := pipe_head_not_ws d rem hdws
                rw [hrest, hu2] at hbu
                injection hbu with h1 _
                subst h1
                unfold noGapTriple
                simp [hdws]
            | cons w ws2 =>
              rw [pipe_cjk_keep c rest d rem hc (by simp [htw]) hdw (by simpa using hd)]
              obtain ⟨ih1, ih2, ih3⟩ := pipe_sanitized (d :: rem)
              have hdws : isJsWs d = false := dropWhile_head_not isJsWs rest d rem hdw
              obtain ⟨u2, hu2⟩ := pipe_head_not_ws d rem hdws
              refine ⟨?_, ?_, ?_⟩
              · simp only [wsIsSpace, List.all_cons, Bool.and_eq_true] at ih1 ⊢
                refine ⟨by simp [show isJsWs c = false from by simpa using hw], by simp, ih1⟩
              · apply pairsOk_cons_of
                · apply pairsOk_cons_of _ _ _ ih2
                  intro b u hbu
                  rw [hu2] at hbu
                  injection hbu with h1 _
                  subst h1
                  unfold noTwoWs
                  simp [hdws]
                · intro b u _
                  unfold noTwoWs
                  simp [show isJsWs c = false from by simpa using hw]
              · apply triplesOk_cons_of
                · apply triplesOk_cons_of _ _ _ ih3
                  intro b c2 u _
                  unfold noGapTriple
                  simp [show isCjkChar ' ' = false from rfl]
                · intro b c2 u hbu
                  rw [hu2] at hbu
                  injection hbu with h1 hbu2
                  injection hbu2 with h2 _
                  subst h1
                  subst h2
                  unfold noGapTriple
                  simp [hd]
      · rw [pipe_plain c rest (by simpa using hw) (by simpa using hc)]
        obtain ⟨ih1, ih2, ih3⟩ := pipe_sanitized rest
        refine ⟨?_, ?_, ?_⟩
        · simp only [wsIsSpace, List.all_cons, Bool.and_eq_true] at ih1 ⊢
          exact ⟨by simp [show isJsWs c = false from by simpa using hw], ih1⟩
        · apply pairsOk_cons_of _ _ _ ih2
          intro b u _
          unfold noTwoWs
          simp [show isJsWs c = false from by simpa using hw]
        · apply triplesOk_cons_of _ _ _ ih3
          intro b c2 u _
          unfold noGapTriple
          simp [show isCjkChar c = false from by simpa using hc]
termination_by l.length
decreasing_by
  all_goals
    first
    | exact Nat.lt_succ_self _
    | exact Nat.lt_succ_of_le (List.dropWhile_sublist isJsWs).length_le
    | (rw [← hdw]
       exact Nat.lt_succ_of_le (List.dropWhile_sublist isJsWs).length_le)

theorem pairsOk_dropWhile (f : Char → Char → Bool) (p : Char → Bool)
    (l : List Char) (h : pairsOk f l = true) :
    pairsOk f (l.dropWhile p) = true := by
  induction l with
  | nil => rfl
  | cons c t ih =>
    by_cases hc : p c
    · rw [List.dropWhile_cons_of_pos hc]
      exact ih (pairsOk_tail f c t h)
    · rw [List.dropWhile_cons_of_neg hc]
      exact h

theorem triplesOk_dropWhile (f : Char → Char → Char → Bool) (p : Char → Bool)
    (l : List Char) (h : triplesOk f l = true) :
    triplesOk f (l.dropWhile p) = true := by
  induction l with
  | nil => rfl
  | cons c t ih =>
    by_cases hc : p c
    · rw [List.dropWhile_cons_of_pos hc]
      exact ih (triplesOk_tail f c t h)
    · rw [List.dropWhile_cons_of_neg hc]
      exact h

theorem pairsOk_append_left (f : Char → Char → Bool) (l m : List Char)
    (h : pairsOk f (l ++ m) = true) : pairsOk f l = true := by
  induction l with
  | nil => rfl
  | cons a t ih =>
    cases t with
    | nil => rfl
    | cons b u =>
      simp only [List.cons_append, pairsOk, Bool.and_eq_true] at h ⊢
      exact ⟨h.1, by
        have := ih (by simpa [List.cons_append] using h.2)
        exact this⟩

theorem triplesOk_append_left (f : Char → Char → Char → Bool) (l m : List Char)
    (h : triplesOk f (l ++ m) = true) : triplesOk f l = true := by
  induction l with
  | nil => rfl
  | cons a t ih =>
    cases t with
    | nil => rfl
    | cons b u =>
      cases u with
      | nil => rfl
      | cons c v =>
        simp only [List.cons_append, triplesOk, Bool.and_eq_true] at h ⊢
        exact ⟨h.1, by
          have := ih (by simpa [List.cons_append] using h.2)
          exact this⟩

theorem dropTrailingWs_decomp (l : List Char) :
    l = dropTrailingWs l ++ (l.reverse.takeWhile isJsWs).reverse := by
  unfold dropTrailingWs
  conv_lhs => rw [← List.reverse_reverse l,
    ← List.takeWhile_append_dropWhile (p := isJsWs) (l := l.reverse)]
  rw [List.reverse_append]

theorem headNotWs_of_decomp (z : List Char) (hz : headNotWs z = true)
    (pre suf : List Char) (hd : z = pre ++ suf) : headNotWs pre = true := by
  cases pre with
  | nil => rfl
  | cons x u =>
    rw [hd] at hz
    exact hz

theorem wsIsSpace_infix (l m : List Char) (h : wsIsSpace l = true)
    (hsub : m.Sublist l) : wsIsSpace m = true := by
  unfold wsIsSpace at h ⊢
  rw [List.all_eq_true] at h ⊢
  exact fun x hx => h x (hsub.mem hx)

theorem trimWs_sanitized (z : List Char) (h1 : wsIsSpace z = true)
    (h2 : pairsOk noTwoWs z = true) (h3 : triplesOk noGapTriple z = true) :
    wsIsSpace (trimWs z) = true ∧ pairsOk noTwoWs (trimWs z) = true
    ∧ triplesOk noGapTriple (trimWs z) = true ∧ noEdgeWs (trimWs z) = true := by
  unfold trimWs
  have hz1 : wsIsSpace (z.dropWhile isJsWs) = true :=
    wsIsSpace_infix z _ h1 (List.dropWhile_sublist isJsWs)
  have hz2 : pairsOk noTwoWs (z.dropWhile isJsWs) = true :=
    pairsOk_dropWhile _ _ _ h2
  have hz3 : triplesOk noGapTriple (z.dropWhile isJsWs) = true :=
    triplesOk_dropWhile _ _ _ h3
  have hdecomp := dropTrailingWs_decomp (z.dropWhile isJsWs)
  refine ⟨?_, ?_, ?_, ?_⟩
  · apply wsIsSpace_infix _ _ hz1
    unfold dropTrailingWs
    have h5 := (List.dropWhile_sublist (l := (z.dropWhile isJsWs).reverse) isJsWs).reverse
    rw [List.reverse_reverse] at h5
    exact h5
  · rw [hdecomp] at hz2
    exact pairsOk_append_left _ _ _ hz2
  · rw [hdecomp] at hz3
    exact triplesOk_append_left _ _ _ hz3
  · unfold noEdgeWs
    rw [Bool.and_eq_true]
    constructor
    · have hhead : headNotWs (z.dropWhile isJsWs) = true := by
        cases hX : z.dropWhile isJsWs with
        | nil => rfl
        | cons d rem =>
          unfold headNotWs
          simp [dropWhile_head_not isJsWs z d rem hX]
      exact headNotWs_of_decomp _ hhead _ _ hdecomp
    · unfold dropTrailingWs
      rw [List.reverse_reverse]
      cases hX : (z.dropWhile isJsWs).reverse.dropWhile isJsWs with
      | nil => rfl
      | cons d rem =>
        unfold headNotWs
        simp [dropWhile_head_not isJsWs _ d rem hX]

theorem sanitizePipe_sanitized (l : List Char) :
    sanitizedForm (sanitizePipe l) = true := by
  obtain ⟨h1, h2, h3⟩ := pipe_sanitized l
  obtain ⟨t1, t2, t3, t4⟩ := trimWs_sanitized (collapseWs (removeCjkGaps l)) h1 h2 h3
  unfold sanitizedForm sanitizePipe
  simp [t1, t2, t3, t4]

theorem takeWhile_eq_cons (p : Char → Bool) (l : List Char) (w : Char)
    (ws2 : List Char) (h : l.takeWhile p = w :: ws2) :
    ∃ t, l = w :: t ∧ p w = true ∧ t.takeWhile p = ws2 := by
  cases l with
  | nil => cases h
  | cons r t =>
    by_cases hr : p r
    · rw [List.takeWhile_cons_of_pos hr] at h
      injection h with h1 h2
      subst h1
      exact ⟨t, rfl, hr, h2⟩
    · rw [List.takeWhile_cons_of_neg hr] at h
      cases h

theorem dropWhile_eq_self_of_takeWhile_nil (p : Char → Bool) (l : List Char)
    (h : l.takeWhile p = []) : l.dropWhile p = l := by
  cases l with
  | nil => rfl
  | cons r t =>
    by_cases hr : p r
    · rw [List.takeWhile_cons_of_pos hr] at h
      cases h
    · exact List.dropWhile_cons_of_neg hr

theorem collapseWs_fix (l : List Char) (h1 : wsIsSpace l = true)
    (h2 : pairsOk noTwoWs l = true) : collapseWs l = l := by
  induction l with
  | nil => rfl
  | cons c rest ih =>
    have hrest1 : wsIsSpace rest = true := by
      unfold wsIsSpace at h1 ⊢
      simp only [List.all_cons, Bool.and_eq_true] at h1
      exact h1.2
    have hrest2 := pairsOk_tail _ c rest h2
    by_cases hw : isJsWs c
    · have hsp : c = ' ' := by
        unfold wsIsSpace at h1
        simp only [List.all_cons, Bool.and_eq_true] at h1
        have := h1.1
        simp only [hw, Bool.not_true, Bool.false_or, decide_eq_true_eq] at this
        exact this
      rw [collapseWs_ws c rest hw]
      have hdrop : rest.dropWhile isJsWs = rest := by
        cases rest with
        | nil => rfl
        | cons b t =>
          apply List.dropWhile_cons_of_neg
          simp only [pairsOk, Bool.and_eq_true] at h2
          have := h2.1
          unfold noTwoWs at this
          simp only [hw, Bool.true_and, Bool.not_eq_eq_eq_not, Bool.not_true] at this
          simp [this]
      rw [hdrop, ih hrest1 hrest2, hsp]
    · rw [collapseWs_not_ws c rest (by simpa using hw), ih hrest1 hrest2]

theorem removeCjkGaps_fix : ∀ l : List Char, pairsOk noTwoWs l = true →
    triplesOk noGapTriple l = true → removeCjkGaps l = l
  | [] => fun _ _ => rfl
  | c :: rest => fun h2 h3 => by
    by_cases hc : isCjkChar c
    · rw [removeCjkGaps_cjk c rest hc]
      cases hdw : rest.dropWhile isJsWs with
      | nil => rfl
      | cons d rem =>
        have hdws := dropWhile_head_not isJsWs rest d rem hdw
        cases htw : rest.takeWhile isJsWs with
        | nil =>
          have hrest : rest = d :: rem := by
            conv_lhs => rw [← List.takeWhile_append_dropWhile (p := isJsWs) (l := rest)]
            rw [htw, hdw]
            rfl
          have hfix : removeCjkGaps (d :: rem) = d :: rem :=
            removeCjkGaps_fix (d :: rem) (hrest ▸ pairsOk_tail _ c rest h2)
              (hrest ▸ triplesOk_tail _ c rest h3)
          by_cases hd : isCjkChar d
          · simp only [hd, if_true, hfix, hrest]
          · simp only [hd, Bool.false_eq_true, if_false, htw, List.nil_append,
              List.singleton_append, hfix, hrest]
        | cons w ws2 =>
          obtain ⟨rest2, hr, hww, htw2⟩ := takeWhile_eq_cons isJsWs rest w ws2 htw
          cases ws2 with
          | cons w2 l2 =>
            exfalso
            obtain ⟨rest3, hr2, hww2, _⟩ := takeWhile_eq_cons isJsWs rest2 w2 l2 htw2
            rw [hr, hr2] at h2
            have := pairsOk_tail _ c _ h2
            simp only [pairsOk, Bool.and_eq_true] at this
            have hpair := this.1
            unfold noTwoWs at hpair
            simp [hww, hww2] at hpair
          | nil =>
            have hrest2 : rest2 = d :: rem := by
              have hdw2 : rest2.dropWhile isJsWs = rest2 :=
                dropWhile_eq_self_of_takeWhile_nil isJsWs rest2 htw2
              rw [hr, List.dropWhile_cons_of_pos hww, hdw2] at hdw
              exact hdw
            by_cases hd : isCjkChar d
            · exfalso
              rw [hr, hrest2] at h3
              simp only [triplesOk, Bool.and_eq_true] at h3
              have htr := h3.1
              unfold noGapTriple at htr
              simp [hc, hww, hd] at htr
            · have hfix : removeCjkGaps (d :: rem) = d :: rem := by
                apply removeCjkGaps_fix (d :: rem)
                · have := pairsOk_tail _ c rest h2
                  rw [hr, hrest2] at this
                  exact pairsOk_tail _ w _ this
                · have := triplesOk_tail _ c rest h3
                  rw [hr, hrest2] at this
                  exact triplesOk_tail _ w _ this
              simp only [hd, Bool.false_eq_true, if_false, htw, hfix, hr, hrest2]
              rfl
    · rw [removeCjkGaps_not_cjk c rest (by simpa using hc)]
      rw [removeCjkGaps_fix rest (pairsOk_tail _ c rest h2) (triplesOk_tail _ c rest h3)]
termination_by l => l.length
decreasing_by
  all_goals
    first
    | exact Nat.lt_succ_self _
    | (rw [hrest]
       exact Nat.lt_succ_self _)
    | (rw [hr, hrest2]
       simp only [List.length_cons]
       omega)

theorem trimWs_fix (l : List Char) (h : noEdgeWs l = true) : trimWs l = l := by
  unfold noEdgeWs at h
  rw [Bool.and_eq_true] at h
  obtain ⟨hh, ht⟩ := h
  unfold trimWs
  have h1 : l.dropWhile isJsWs = l := by
    cases l with
    | nil => rfl
    | cons c t =>
      unfold headNotWs at hh
      exact List.dropWhile_cons_of_neg (by simp at hh; simp [hh])
  rw [h1]
  unfold dropTrailingWs
  have h2 : l.reverse.dropWhile isJsWs = l.reverse := by
    cases hr : l.reverse with
    | nil => rfl
    | cons c t =>
      rw [hr] at ht
      unfold headNotWs at ht
      exact List.dropWhile_cons_of_neg (by simp at ht; simp [ht])
  rw [h2, List.reverse_reverse]

theorem sanitizePipe_fix (l : List Char) (h : sanitizedForm l = true) :
    sanitizePipe l = l := by
  unfold sanitizedForm at h
  simp only [Bool.and_eq_true] at h
  obtain ⟨⟨⟨h1, h2⟩, h3⟩, h4⟩ := h
  unfold sanitizePipe
  rw [removeCjkGaps_fix l h2 h3, collapseWs_fix l h1 h2, trimWs_fix l h4]

theorem sanitizePipe_idem (l : List Char) :
    sanitizePipe (sanitizePipe l) = sanitizePipe l :=
  sanitizePipe_fix _ (sanitizePipe_sanitized l)

/-! ### Claim theorems -/

/-- C3: deleting a Source deletes its underlying blob iff the Source has a
non-empty storage path and (the scope is personal, or the scope is team
and the Source has no `inheritedFromDocumentId`); in particular an
inherited team copy never triggers a blob delete. -/
theorem c3_delete_blob_iff :
    (∀ (scope : ScopeType) (chatSelected : Bool) (source : SourceItem),
      (scope = .team → chatSelected = true) →
      (blobDeletedOnDelete scope chatSelected true source = true ↔
        specBlobDelete scope source))
    ∧ (∀ (chatSelected confirmed : Bool) (source : SourceItem),
        source.inheritedFromDocumentId ≠ "" →
        blobDeletedOnDelete .team chatSelected confirmed source = false) := by
  constructor
  · intro scope chatSelected source hchat
    cases scope with
    | personal => simp [blobDeletedOnDelete, specBlobDelete]
    | team =>
      rw [hchat rfl]
      simp [blobDeletedOnDelete, specBlobDelete, and_comm]
  · intro chatSelected confirmed source hinh
    cases chatSelected <;> cases confirmed <;>
      simp [blobDeletedOnDelete, hinh]

/-- Witness for C3 at concrete inputs. -/
theorem c3_delete_blob_iff_witness :
    (blobDeletedOnDelete .personal true true
        { id := "doc1", name := "n", text := "t", summary := "",
          pricingPlans := [], storagePath := "users/u/documents/f.pdf",
          inheritedFromDocumentId := "" } = true ↔
      specBlobDelete .personal
        { id := "doc1", name := "n", text := "t", summary := "",
          pricingPlans := [], storagePath := "users/u/documents/f.pdf",
          inheritedFromDocumentId := "" })
    ∧ blobDeletedOnDelete .team true true
        { id := "copy", name := "n", text := "t", summary := "",
          pricingPlans := [], storagePath := "users/u/documents/f.pdf",
          inheritedFromDocumentId := "doc1" } = false :=
  ⟨c3_delete_blob_iff.1 .personal true _ (fun h => ScopeType.noConfusion h),
    c3_delete_blob_iff.2 true true _ (by decide)⟩

/-- C6: inheriting selected personal Sources into a freshly created team
thread writes, for every selected Source A, a document into the thread's
sub-collection whose name/text/summary/pricingPlans/storagePath equal A's
and whose `inheritedFromDocumentId` is A's id. -/
theorem c6_inherit_copies :
    ∀ (createdChatId : String) (globalSources : List SourceItem)
      (sourceIds : List String) (A : SourceItem),
      A ∈ globalSources → A.id ∈ sourceIds →
      ∃ d ∈ createTeamChatWithInheritance createdChatId globalSources sourceIds,
        d.chatId = createdChatId ∧ d.name = A.name ∧ d.text = A.text ∧
        d.summary = A.summary ∧ d.pricingPlans = A.pricingPlans ∧
        d.storagePath = A.storagePath ∧ d.inheritedFromDocumentId = A.id := by
  intro cid gs ids A hA hid
  refine ⟨_, List.mem_map_of_mem _ (List.mem_filter.mpr ⟨hA, ?_⟩),
    rfl, rfl, rfl, rfl, rfl, rfl, rfl⟩
  simpa using hid

/-- Witness for C6 at concrete inputs. -/
theorem c6_inherit_copies_witness :
    ∃ d ∈ createTeamChatWithInheritance "chatT"
        [{ id := "doc1", name := "A", text := "txt", summary := "sum",
           pricingPlans := [{ name := "Basic", priceMonthlyYen := some 1000, note := "" }],
           storagePath := "users/u/documents/a.pdf", inheritedFromDocumentId := "" }]
        ["doc1"],
      d.chatId = "chatT" ∧ d.name = "A" ∧ d.text = "txt" ∧
      d.summary = "sum" ∧
      d.pricingPlans = [{ name := "Basic", priceMonthlyYen := some 1000, note := "" }] ∧
      d.storagePath = "users/u/documents/a.pdf" ∧ d.inheritedFromDocumentId = "doc1" :=
  c6_inherit_copies "chatT" _ _ _ (List.mem_singleton.mpr rfl) (List.mem_singleton.mpr rfl)

/-- C2 counterexample: with an empty candidate list `handleAsk` still
attempts the remote chat call (`remoteCalled = true`), and when that call
succeeds its answer — not the fixed upload-first message — is returned. -/
theorem c2_remote_still_called_counterexample :
    (handleAskReply id (some "モデル回答") "質問" []).remoteCalled = true ∧
    (handleAskReply id (some "モデル回答") "質問" []).reply ≠
      "先にPDFをアップロードしてください。" := by
  exact ⟨rfl, by decide⟩

/-- C2 amended: the local fallback returns the fixed upload-first message
on an empty candidate list, but `handleAsk` always attempts the remote
chat call first; the fixed message is the reply exactly when that attempt
throws or returns an empty string. -/
theorem c2_empty_candidates :
    (∀ (nfkc : String → String) (q : String),
      buildAssistantReply nfkc q [] = "先にPDFをアップロードしてください。")
    ∧ (∀ (nfkc : String → String) (remote : Option String) (q : String),
        (handleAskReply nfkc remote q []).remoteCalled = true)
    ∧ (∀ (nfkc : String → String) (q : String),
        (handleAskReply nfkc none q []).reply = "先にPDFをアップロードしてください。"
        ∧ (handleAskReply nfkc (some "") q []).reply =
            "先にPDFをアップロードしてください。") :=
  ⟨fun _ _ => rfl, fun _ _ _ => rfl, fun _ _ => ⟨rfl, rfl⟩⟩

/-- C5 counterexample: a request whose normalized text is empty is
rejected with the 400 "text is required" validation error instead of
succeeding with the sentinel summary. -/
theorem c5_empty_text_rejected_counterexample :
    analyzePOST id (some "   ") false { httpOk := false, direct := none, recovered := none } =
      .badRequest "text is required" := by
  decide

/-- C5 amended: `fallbackAnalyze` on empty text does produce the fixed
"could not extract" sentinel with no plans, but the analyze endpoint
itself rejects every request whose normalized text is empty with a 400
"text is required" error rather than succeeding. -/
theorem c5_empty_text_behaviour :
    (∀ (nfkc : String → String) (bodyText : Option String) (hasApiKey : Bool)
        (remote : RemoteAnalyzeOutcome),
      sanitizeText nfkc (bodyText.getD "") = "" →
      analyzePOST nfkc bodyText hasApiKey remote = .badRequest "text is required")
    ∧ (∀ nfkc : String → String, nfkc "" = "" →
        fallbackAnalyze nfkc "" =
          { summary := "概要を抽出できませんでした。", plans := [] }) := by
  constructor
  · intro nfkc bodyText hasKey remote h
    unfold analyzePOST
    simp [h]
  · intro nfkc h
    have hs : sanitizeText nfkc "" = "" := by
      unfold sanitizeText
      rw [h]
      decide
    unfold fallbackAnalyze
    rw [hs]
    decide

/-- Witness for C5 amended at concrete inputs. -/
theorem c5_empty_text_behaviour_witness :
    analyzePOST id (some "") false { httpOk := false, direct := none, recovered := none } =
      .badRequest "text is required"
    ∧ fallbackAnalyze id "" = { summary := "概要を抽出できませんでした。", plans := [] } :=
  ⟨c5_empty_text_behaviour.1 id (some "") false _ (by decide),
    c5_empty_text_behaviour.2 id rfl⟩

/-- C1: the specification expects the fallback to extract
(プランA, 3000) and (プランB, 5000) from the scenario text, but the plan
regex requires at least two digits before the first thousands separator
(`[0-9]\x7b2,6\x7d(?:,[0-9]\x7b3\x7d)*`), so `3,000` and `5,000` never
match and the fallback extracts no plan at all. -/
theorem c1_fallback_misses_separated_thousands (nfkc : String → String)
    (h : nfkc c1Input = c1Input) :
    (fallbackAnalyze nfkc c1Input).plans = []
    ∧ (fallbackAnalyze nfkc c1Input).summary =
        "プランA 3,000円/月プランB 5,000円/月" := by
  have hs : sanitizeText nfkc c1Input = "プランA 3,000円/月プランB 5,000円/月" := by
    unfold sanitizeText
    rw [h]
    decide
  unfold fallbackAnalyze
  rw [hs]
  exact ⟨by decide, by decide⟩

/-- Witness for C1 with the identity as NFKC (the scenario text is
NFKC-stable). -/
theorem c1_fallback_misses_separated_thousands_witness :
    (fallbackAnalyze id c1Input).plans = []
    ∧ (fallbackAnalyze id c1Input).summary =
        "プランA 3,000円/月プランB 5,000円/月" :=
  c1_fallback_misses_separated_thousands id rfl

theorem mem_insertNewKey (acc : List (String × PricingPlan)) (key : String)
    (p : PricingPlan) (kv : String × PricingPlan)
    (h : kv ∈ insertNewKey acc key p) : kv ∈ acc ∨ kv = (key, p) := by
  unfold insertNewKey at h
  split at h
  · exact Or.inl h
  · rcases List.mem_append.mp h with h2 | h2
    · exact Or.inl h2
    · exact Or.inr (List.mem_singleton.mp h2)

theorem pairwise_insertNewKey (acc : List (String × PricingPlan)) (key : String)
    (p : PricingPlan) (hacc : acc.Pairwise fun a b => a.1 ≠ b.1) :
    (insertNewKey acc key p).Pairwise fun a b => a.1 ≠ b.1 := by
  unfold insertNewKey
  split
  · exact hacc
  · rename_i hany
    rw [List.pairwise_append]
    refine ⟨hacc, List.pairwise_singleton _ _, fun a ha b hb => ?_⟩
    have hb2 := List.mem_singleton.mp hb
    intro heq
    apply hany
    rw [List.any_eq_true]
    exact ⟨a, ha, by simp [hb2 ▸ heq]⟩

theorem mem_foldl_insertNewKey (pairs : List (String × PricingPlan))
    (acc : List (String × PricingPlan)) (kv : String × PricingPlan)
    (h : kv ∈ pairs.foldl (fun acc kp => insertNewKey acc kp.1 kp.2) acc) :
    kv ∈ acc ∨ kv ∈ pairs := by
  induction pairs generalizing acc with
  | nil => exact Or.inl h
  | cons kp rest ih =>
    simp only [List.foldl_cons] at h
    rcases ih _ h with h1 | h1
    · rcases mem_insertNewKey _ _ _ _ h1 with h2 | h2
      · exact Or.inl h2
      · exact Or.inr (by simp [h2])
    · exact Or.inr (List.mem_cons_of_mem _ h1)

theorem pairwise_keys_foldl (pairs : List (String × PricingPlan))
    (acc : List (String × PricingPlan))
    (hacc : acc.Pairwise fun a b => a.1 ≠ b.1) :
    (pairs.foldl (fun acc kp => insertNewKey acc kp.1 kp.2) acc).Pairwise
      (fun a b => a.1 ≠ b.1) := by
  induction pairs generalizing acc with
  | nil => exact hacc
  | cons kp rest ih =>
    simp only [List.foldl_cons]
    exact ih _ (pairwise_insertNewKey _ _ _ hacc)

/-- C4 counterexample: a remote-model response carrying nine identical
plans passes `safeParseAnalyze` unchanged and is returned by the analyze
endpoint as-is — more than 8 entries, all sharing the same name and
price (the parser neither deduplicates nor caps). -/
theorem c4_remote_plans_not_capped_counterexample :
    analyzePOST id (some "x") true
        { httpOk := true, direct := some c4Payload, recovered := none } =
      .ok { summary := "s", plans := List.replicate 9 c4Plan }
    ∧ 8 < (List.replicate 9 c4Plan).length
    ∧ (List.replicate 9 c4Plan).take 2 = [c4Plan, c4Plan] := by
  exact ⟨by decide, by decide, by decide⟩

/-- C4 amended: the local fallback's plan list is capped at 8, has no
empty names, and is deduplicated by the pre-default
`` `${name}-${price}` `` key (so its internal map has pairwise-distinct
keys); plan lists accepted from a remote-model response have no empty
names and null-coerced prices but are neither deduplicated nor capped by
the parser. -/
theorem c4_plan_list_shape :
    (∀ (nfkc : String → String) (text : String),
      (fallbackAnalyze nfkc text).plans.length ≤ 8
      ∧ (∀ p ∈ (fallbackAnalyze nfkc text).plans, p.name ≠ "")
      ∧ (fallbackPlansMap (sanitizeText nfkc text)).Pairwise
          (fun a b => a.1 ≠ b.1))
    ∧ (∀ (parsed : Option RawAnalyze) (r : AnalyzeResult),
        safeParseAnalyze parsed = some r → ∀ p ∈ r.plans, p.name ≠ "") := by
  constructor
  · intro nfkc text
    refine ⟨?_, ?_, ?_⟩
    · unfold fallbackAnalyze
      simp
    · intro p hp
      unfold fallbackAnalyze at hp
      simp only at hp
      have hp2 := List.take_subset _ _ hp
      rcases List.mem_map.mp hp2 with ⟨kv, hkv, rfl⟩
      rcases mem_foldl_insertNewKey _ _ _ hkv with h | h
      · cases h
      · unfold fallbackPlanPairs at h
        rcases List.mem_map.mp h with ⟨m, _, rfl⟩
        simp only
        split
        · decide
        · assumption
    · exact pairwise_keys_foldl _ _ List.Pairwise.nil
  · intro parsed r hr p hp
    unfold safeParseAnalyze at hr
    cases parsed with
    | none => cases hr
    | some pp =>
      rcases pp with ⟨s, pl⟩
      cases s with
      | none => cases hr
      | some s =>
        cases pl with
        | none => cases hr
        | some pl =>
          simp only [Option.some.injEq] at hr
          subst hr
          have hpos := (List.mem_filter.mp hp).2
          intro heq
          rw [heq] at hpos
          simp at hpos

/-- Witness for C4 amended at concrete inputs. -/
theorem c4_plan_list_shape_witness :
    (fallbackAnalyze id "プラン 30,000円/月").plans.length ≤ 8
    ∧ (∀ p ∈ (fallbackAnalyze id "プラン 30,000円/月").plans, p.name ≠ "")
    ∧ (∀ p ∈ (safeParseAnalyze (some c4Payload)).getD ⟨"", []⟩ |>.plans, p.name ≠ "") := by
  refine ⟨(c4_plan_list_shape.1 id _).1, (c4_plan_list_shape.1 id _).2.1, ?_⟩
  intro p hp
  exact c4_plan_list_shape.2 (some c4Payload) _ rfl p hp

theorem questionTokens_two_le (q : String) :
    ∀ t ∈ questionTokens q, 2 ≤ t.length := by
  intro t ht
  have := (List.mem_filter.mp ht).2
  simpa using this

theorem toList_ne_nil_of_two_le (t : String) (h : 2 ≤ t.length) :
    t.toList ≠ [] := by
  intro he
  rw [show t.length = t.toList.length from rfl, he] at h
  simp at h

theorem sourceScore_ne_zero_text (tokens : List String) (ns : List Char)
    (htok : ∀ t ∈ tokens, 2 ≤ t.length) (h : sourceScore tokens ns ≠ 0) :
    ns ≠ [] := by
  intro hns
  subst hns
  apply h
  unfold sourceScore
  rw [List.length_eq_zero, List.filter_eq_nil_iff]
  intro t ht
  have h2 := toList_ne_nil_of_two_le t (htok t ht)
  cases htl : t.toList with
  | nil => exact absurd htl h2
  | cons a as =>
    unfold indexOfFrom
    simp [List.isPrefixOf]

theorem stepBest_skip (tokens : List String) (st : BestState) (source : SourceItem)
    (h : (normalizeText source.text).toList = []) :
    stepBest tokens st source = st := by
  simp only [stepBest]
  rw [if_pos h]

theorem stepBest_not_better (tokens : List String) (st : BestState) (source : SourceItem)
    (h : (sourceScore tokens (normalizeText source.text).toList : Int) ≤ st.bestScore) :
    stepBest tokens st source = st := by
  simp only [stepBest]
  by_cases hns : (normalizeText source.text).toList = []
  · rw [if_pos hns]
  · rw [if_neg hns, if_neg (not_lt.mpr h)]

theorem stepBest_better (tokens : List String) (st : BestState) (source : SourceItem)
    (h1 : (normalizeText source.text).toList ≠ [])
    (h2 : st.bestScore < (sourceScore tokens (normalizeText source.text).toList : Int)) :
    stepBest tokens st source =
      { best := some source,
        bestScore := (sourceScore tokens (normalizeText source.text).toList : Int),
        bestSnippet := snippetOf tokens source } := by
  simp only [stepBest]
  rw [if_neg h1, if_pos h2]

theorem runBest_append (tokens : List String) (sources : List SourceItem)
    (s : SourceItem) :
    runBest tokens (sources ++ [s]) = stepBest tokens (runBest tokens sources) s := by
  unfold runBest
  rw [List.foldl_append]
  rfl

/-- C7: the general-branch comparison is strictly-greater, so on a score
tie the earlier candidate is selected: for two candidates with equal
non-zero scores the first wins, and appending any candidate whose score
does not exceed the current best never changes the selection, for every
question and candidate list. -/
theorem c7_tie_break :
    (∀ (q : String) (s1 s2 : SourceItem),
      sourceScore (questionTokens q) (normalizeText s1.text).toList =
        sourceScore (questionTokens q) (normalizeText s2.text).toList →
      sourceScore (questionTokens q) (normalizeText s1.text).toList ≠ 0 →
      (runBest (questionTokens q) [s1, s2]).best = some s1)
    ∧ (∀ (tokens : List String) (sources : List SourceItem) (s : SourceItem),
        (sourceScore tokens (normalizeText s.text).toList : Int) ≤
          (runBest tokens sources).bestScore →
        runBest tokens (sources ++ [s]) = runBest tokens sources) := by
  constructor
  · intro q s1 s2 heq hne
    have hns1 : (normalizeText s1.text).toList ≠ [] :=
      sourceScore_ne_zero_text _ _ (questionTokens_two_le q) hne
    have e0 : runBest (questionTokens q) [s1, s2] =
        stepBest (questionTokens q)
          (stepBest (questionTokens q)
            { best := none, bestScore := -1, bestSnippet := "" } s1) s2 := rfl
    have e1 := stepBest_better (questionTokens q)
      { best := none, bestScore := -1, bestSnippet := "" } s1 hns1
      (by
        show (-1 : Int) < _
        omega)
    have e2 : stepBest (questionTokens q)
        { best := some s1,
          bestScore := (sourceScore (questionTokens q) (normalizeText s1.text).toList : Int),
          bestSnippet := snippetOf (questionTokens q) s1 } s2 =
        { best := some s1,
          bestScore := (sourceScore (questionTokens q) (normalizeText s1.text).toList : Int),
          bestSnippet := snippetOf (questionTokens q) s1 } := by
      apply stepBest_not_better
      show (sourceScore (questionTokens q) (normalizeText s2.text).toList : Int) ≤
        (sourceScore (questionTokens q) (normalizeText s1.text).toList : Int)
      rw [heq]
    rw [e0, e1, e2]
  · intro tokens sources s h
    rw [runBest_append]
    exact stepBest_not_better _ _ _ h

/-- Witness for C7 at concrete inputs: two sources both scoring 1 on the
question "hello". -/
theorem c7_tie_break_witness :
    (runBest (questionTokens "hello")
        [{ id := "1", name := "A", text := "say hello", summary := "",
           pricingPlans := [], storagePath := "", inheritedFromDocumentId := "" },
         { id := "2", name := "B", text := "hello there", summary := "",
           pricingPlans := [], storagePath := "", inheritedFromDocumentId := "" }]).best =
      some { id := "1", name := "A", text := "say hello", summary := "",
             pricingPlans := [], storagePath := "", inheritedFromDocumentId := "" } :=
  c7_tie_break.1 "hello" _ _ (by decide) (by decide)

theorem append_ne_empty_left (a b : String) (h : a ≠ "") : a ++ b ≠ "" := by
  intro he
  apply h
  have h1 : a.length + b.length = 0 := by
    rw [← String.length_append, he]
    rfl
  have h2 : a.toList.length = 0 := by
    have : a.length = 0 := by omega
    exact this
  have h3 : a.toList = [] := List.length_eq_zero.mp h2
  exact String.ext h3

theorem append_ne_empty_right (a b : String) (h : b ≠ "") : a ++ b ≠ "" := by
  intro he
  apply h
  have h1 : a.length + b.length = 0 := by
    rw [← String.length_append, he]
    rfl
  have h2 : b.toList.length = 0 := by
    have : b.length = 0 := by omega
    exact this
  have h3 : b.toList = [] := List.length_eq_zero.mp h2
  exact String.ext h3

theorem priceBranch_form (nfkc : String → String) (q : String)
    (sources : List SourceItem) (r : String)
    (h : priceBranch nfkc q sources = some r) : ∃ x, r = "料金情報:\n" ++ x := by
  simp only [priceBranch] at h
  split at h
  · split at h
    · injection h with h
      exact ⟨_, h.symm⟩
    · split at h
      · injection h with h
        exact ⟨_, h.symm⟩
      · cases h
  · cases h

theorem runBest_all_empty (tokens : List String) (sources : List SourceItem)
    (h : ∀ s ∈ sources, (normalizeText s.text).toList = []) :
    runBest tokens sources = { best := none, bestScore := -1, bestSnippet := "" } := by
  induction sources with
  | nil => rfl
  | cons s rest ih =>
    unfold runBest
    rw [List.foldl_cons, stepBest_skip _ _ _ (h s (List.mem_cons_self s rest))]
    exact ih fun s2 h2 => h s2 (List.mem_cons_of_mem _ h2)

/-- C10 counterexample: with a single candidate whose text is empty but
which carries a stored pricing plan, a price-intent question returns the
price block — not the "no usable text" message the claim predicts for
all-empty texts. -/
theorem c10_price_block_on_empty_text_counterexample :
    buildAssistantReply id "料金" [c10PriceSource] = "料金情報:\nBasic: 1,000円/月"
    ∧ c10PriceSource.text = ""
    ∧ ("料金情報:\nBasic: 1,000円/月" : String) ≠
        "回答に使えるテキストを見つけられませんでした。" := by
  exact ⟨by decide, rfl, by decide⟩

/-- C10 amended: `buildAssistantReply` is total and never returns the
empty string; empty candidates yield the upload-first message; when the
price branch does not return, candidates whose texts all normalize to
empty yield the no-usable-text message; otherwise a price block, summary
line or snippet reference is returned. -/
theorem c10_reply_total_nonempty :
    ∀ (nfkc : String → String) (q : String) (sources : List SourceItem),
      buildAssistantReply nfkc q sources ≠ ""
      ∧ (sources = [] →
          buildAssistantReply nfkc q sources = "先にPDFをアップロードしてください。")
      ∧ (sources ≠ [] → priceBranch nfkc q sources = none →
          (∀ s ∈ sources, normalizeText s.text = "") →
          buildAssistantReply nfkc q sources =
            "回答に使えるテキストを見つけられませんでした。") := by
  intro nfkc q sources
  refine ⟨?_, ?_, ?_⟩
  · by_cases hs : sources.length = 0
    · unfold buildAssistantReply
      rw [if_pos hs]
      decide
    · simp only [buildAssistantReply]
      rw [if_neg hs]
      split
      · rename_i r hpb
        obtain ⟨x, rfl⟩ := priceBranch_form nfkc q sources r hpb
        exact append_ne_empty_left _ _ (by decide)
      · split
        · decide
        · split
          · exact append_ne_empty_left _ _ (append_ne_empty_right _ _ (by decide))
          · exact append_ne_empty_left _ _
              (append_ne_empty_left _ _ (append_ne_empty_left _ _ (by decide)))
  · intro hs
    subst hs
    rfl
  · intro hne hpb hempty
    have hlen : sources.length ≠ 0 := by
      intro h0
      exact hne (List.length_eq_zero.mp h0)
    simp only [buildAssistantReply]
    rw [if_neg hlen, hpb, runBest_all_empty (questionTokens q) sources
      (fun s hsem => by rw [hempty s hsem]; rfl)]

theorem char_eq_of_toNat_eq (b : Char) (n : Nat) (h : b.toNat = n) :
    b = Char.ofNat n := by
  rw [← h, Char.ofNat_toNat]

theorem matches172_iff (l : List Char) :
    matches172Range l = true ↔
      ∃ n : Nat, 16 ≤ n ∧ n ≤ 31 ∧
        startsWithL l ("172." ++ toString n ++ ".").toList = true := by
  constructor
  · intro h
    match l with
    | [] => cases h
    | [c1] => cases h
    | [c1, c2] => cases h
    | [c1, c2, c3] => cases h
    | [c1, c2, c3, c4] => cases h
    | [c1, c2, c3, c4, a] => cases h
    | [c1, c2, c3, c4, a, b] => cases h
    | c1 :: c2 :: c3 :: c4 :: a :: b :: c7 :: t =>
      simp only [matches172Range, Bool.and_eq_true, Bool.or_eq_true,
        decide_eq_true_eq] at h
      obtain ⟨⟨⟨⟨⟨rfl, rfl⟩, rfl⟩, rfl⟩, rfl⟩, hcase⟩ := h
      rcases hcase with (⟨⟨rfl, h6⟩, h9⟩ | ⟨rfl, hd⟩) | ⟨rfl, hb⟩
      · simp only [Char.le_def] at h6 h9
        have hb : 54 ≤ b.toNat ∧ b.toNat ≤ 57 := ⟨h6, h9⟩
        obtain ⟨hlo, hhi⟩ := hb
        interval_cases hm : b.toNat <;>
          rw [char_eq_of_toNat_eq b _ hm] <;>
          first
          | exact ⟨16, by omega, by omega, List.isPrefixOf_iff_prefix.mpr ⟨t, rfl⟩⟩
          | exact ⟨17, by omega, by omega, List.isPrefixOf_iff_prefix.mpr ⟨t, rfl⟩⟩
          | exact ⟨18, by omega, by omega, List.isPrefixOf_iff_prefix.mpr ⟨t, rfl⟩⟩
          | exact ⟨19, by omega, by omega, List.isPrefixOf_iff_prefix.mpr ⟨t, rfl⟩⟩
      · unfold isAsciiDigit at hd
        simp only [Bool.and_eq_true, decide_eq_true_eq, Char.le_def] at hd
        have hd2 : 48 ≤ b.toNat ∧ b.toNat ≤ 57 := ⟨hd.1, hd.2⟩
        obtain ⟨hlo, hhi⟩ := hd2
        interval_cases hm : b.toNat <;>
          rw [char_eq_of_toNat_eq b _ hm] <;>
          first
          | exact ⟨20, by omega, by omega, List.isPrefixOf_iff_prefix.mpr ⟨t, rfl⟩⟩
          | exact ⟨21, by omega, by omega, List.isPrefixOf_iff_prefix.mpr ⟨t, rfl⟩⟩
          | exact ⟨22, by omega, by omega, List.isPrefixOf_iff_prefix.mpr ⟨t, rfl⟩⟩
          | exact ⟨23, by omega, by omega, List.isPrefixOf_iff_prefix.mpr ⟨t, rfl⟩⟩
          | exact ⟨24, by omega, by omega, List.isPrefixOf_iff_prefix.mpr ⟨t, rfl⟩⟩
          | exact ⟨25, by omega, by omega, List.isPrefixOf_iff_prefix.mpr ⟨t, rfl⟩⟩
          | exact ⟨26, by omega, by omega, List.isPrefixOf_iff_prefix.mpr ⟨t, rfl⟩⟩
          | exact ⟨27, by omega, by omega, List.isPrefixOf_iff_prefix.mpr ⟨t, rfl⟩⟩
          | exact ⟨28, by omega, by omega, List.isPrefixOf_iff_prefix.mpr ⟨t, rfl⟩⟩
          | exact ⟨29, by omega, by omega, List.isPrefixOf_iff_prefix.mpr ⟨t, rfl⟩⟩
      · rcases hb with rfl | rfl
        · exact ⟨30, by omega, by omega, List.isPrefixOf_iff_prefix.mpr ⟨t, rfl⟩⟩
        · exact ⟨31, by omega, by omega, List.isPrefixOf_iff_prefix.mpr ⟨t, rfl⟩⟩
  · rintro ⟨n, h16, h31, hpre⟩
    obtain ⟨t, ht⟩ := List.isPrefixOf_iff_prefix.mp hpre
    interval_cases n <;> (rw [← ht]; rfl)

/-- C9: the URL extractor rejects every non-http(s) scheme and every
private/loopback hostname (exact `localhost`/`0.0.0.0`, suffix `.local`,
prefixes `127.`, `10.`, `192.168.`, and the `172.16.`–`172.31.` range),
with the error produced before any fetch is attempted; the code's
`isPrivateHostname` is exactly the spec's host condition. -/
theorem c9_ssrf_guard :
    (∀ hostname : String, isPrivateHostname hostname = true ↔ specPrivateHost hostname)
    ∧ (∀ protocol hostname : String,
        ¬ protocol ∈ (["http:", "https:"] : List String) →
        urlExtractPOST protocol hostname =
          { fetchAttempted := false, error := some "http/https only" })
    ∧ (∀ protocol hostname : String, isPrivateHostname hostname = true →
        (urlExtractPOST protocol hostname).fetchAttempted = false
        ∧ (urlExtractPOST protocol hostname).error ≠ none) := by
  refine ⟨?_, ?_, ?_⟩
  · intro hostname
    unfold isPrivateHostname specPrivateHost
    simp only [Bool.or_eq_true, decide_eq_true_eq, matches172_iff]
    tauto
  · intro protocol hostname h
    have hc : ((["http:", "https:"] : List String).contains protocol) = false := by
      simpa using h
    unfold urlExtractPOST
    rw [hc]
    rfl
  · intro protocol hostname hpriv
    unfold urlExtractPOST
    cases hc : ((["http:", "https:"] : List String).contains protocol) with
    | false => exact ⟨rfl, by simp⟩
    | true =>
      rw [hpriv]
      exact ⟨rfl, by simp⟩

/-- Witness for C9 at concrete inputs. -/
theorem c9_ssrf_guard_witness :
    (isPrivateHostname "10.0.0.5" = true ↔ specPrivateHost "10.0.0.5")
    ∧ urlExtractPOST "ftp:" "example.com" =
        { fetchAttempted := false, error := some "http/https only" }
    ∧ (urlExtractPOST "http:" "10.0.0.5").fetchAttempted = false
    ∧ (urlExtractPOST "http:" "10.0.0.5").error ≠ none :=
  ⟨c9_ssrf_guard.1 "10.0.0.5",
    c9_ssrf_guard.2.1 "ftp:" "example.com" (by decide),
    (c9_ssrf_guard.2.2 "http:" "10.0.0.5" (by decide)).1,
    (c9_ssrf_guard.2.2 "http:" "10.0.0.5" (by decide)).2⟩

/-- C8: the text normalizer is idempotent, its output never contains two
adjacent whitespace characters, whitespace between two adjacent CJK
characters is removed (`normalize("日本 語") = "日本語"`), and the two
sanitizers are the same function.  NFKC normalization is the platform
built-in, modelled abstractly: it is assumed stable on already-sanitized
output and on the concrete (NFKC-normal) example string. -/
theorem c8_normalize (nfkc : String → String)
    (hstable : ∀ s, nfkc (sanitizeText nfkc s) = sanitizeText nfkc s)
    (hfix : nfkc "日本 語" = "日本 語") :
    (∀ x, sanitizeText nfkc (sanitizeText nfkc x) = sanitizeText nfkc x)
    ∧ (∀ x, pairsOk noTwoWs (sanitizeText nfkc x).toList = true)
    ∧ sanitizeText nfkc "日本 語" = "日本語"
    ∧ (∀ x, sanitizeExtractedText nfkc x = sanitizeText nfkc x) := by
  refine ⟨?_, ?_, ?_, fun x => rfl⟩
  · intro x
    show (⟨sanitizePipe (nfkc (sanitizeText nfkc x)).toList⟩ : String) = _
    rw [hstable x]
    show (⟨sanitizePipe (sanitizePipe (nfkc x).toList)⟩ : String) =
      (⟨sanitizePipe (nfkc x).toList⟩ : String)
    rw [sanitizePipe_idem]
  · intro x
    show pairsOk noTwoWs (sanitizePipe (nfkc x).toList) = true
    have hs := sanitizePipe_sanitized (nfkc x).toList
    unfold sanitizedForm at hs
    simp only [Bool.and_eq_true] at hs
    exact hs.1.1.2
  · unfold sanitizeText
    rw [hfix]
    decide

/-- Witness for C8 with the identity as NFKC (satisfying both stability
hypotheses definitionally). -/
theorem c8_normalize_witness :
    sanitizeText id (sanitizeText id " a  b　 c ") = sanitizeText id " a  b　 c "
    ∧ pairsOk noTwoWs (sanitizeText id " a  b　 c ").toList = true
    ∧ sanitizeText id "日本 語" = "日本語" :=
  ⟨(c8_normalize id (fun _ => rfl) rfl).1 _,
    (c8_normalize id (fun _ => rfl) rfl).2.1 _,
    (c8_normalize id (fun _ => rfl) rfl).2.2.1⟩

/-- Witness for C10 amended at concrete inputs. -/
theorem c10_reply_total_nonempty_witness :
    buildAssistantReply id "こんにちは" [] ≠ ""
    ∧ buildAssistantReply id "こんにちは" [] = "先にPDFをアップロードしてください。"
    ∧ buildAssistantReply id "zzz"
        [{ id := "1", name := "S", text := "", summary := "", pricingPlans := [],
           storagePath := "", inheritedFromDocumentId := "" }] =
        "回答に使えるテキストを見つけられませんでした。" :=
  ⟨(c10_reply_total_nonempty id "こんにちは" []).1,
    (c10_reply_total_nonempty id "こんにちは" []).2.1 rfl,
    (c10_reply_total_nonempty id "zzz" _).2.2 (by decide) (by decide)
      (by intro s hs; rw [List.mem_singleton.mp hs]; decide)⟩

end Upmo
